import Mathlib

/-!
# Tic-tac-toe: win detection, alpha-beta search and the game loop of `tictac.c`

A shallow embedding of `src/tictac.c`.  Occupancy sets (`bitfield`, an
`unsigned int` in C) are natural numbers, scores (`int`) are integers.  All
scores that occur lie between `-INT_MAX` and `INT_MAX`, so no negation
overflows and no wrap-around has to be modelled.
-/

namespace TicTac

/-! ## Data model -/

/-- The C type `bitfield` (`unsigned int`): bit `i` set means cell `i` is occupied. -/
abbrev bitfield := Nat

/-- The C type `score` (`int`). -/
abbrev score := Int

/-- The macro `FULL`, octal `0777`: all nine cells occupied. -/
def FULL : bitfield := 0o777

/-- The constant `INT_MAX` of a 32-bit `int`. -/
def INT_MAX : Int := 2147483647

/-- Evaluation score `WIN`. -/
def WIN : score := 1

/-- Evaluation score `LOSS`. -/
def LOSS : score := -1

/-- Evaluation score `DRAW`. -/
def DRAW : score := 0

/-- The table `wins` of `is_win`: three rows, three columns, two diagonals (octal). -/
def wins : List bitfield := [0o007, 0o070, 0o700, 0o111, 0o222, 0o444, 0o421, 0o124]

/-- The function `is_win`: some pattern of `wins` is contained in `board`. -/
def is_win (board : bitfield) : Bool :=
  wins.any (fun w => board &&& w == w)

/-- The indices `0..8` visited by the loop `for (int i = 0; i < 9; i++)`. -/
def cells : List Nat := [0, 1, 2, 3, 4, 5, 6, 7, 8]

/-- The body of the `for` loop of `alpha_beta`, run over the remaining indices.
`child` is the recursive call (returning `none` when it does not return),
`achievable` and `bestmove` are the loop-carried variables; `break` ends the scan. -/
def scan (child : bitfield → bitfield → score → score → Option score)
    (me opp : bitfield) (cutoff : score) : List Nat → score → Nat → Option (score × Nat)
  | [], achievable, bestmove => some (achievable, bestmove)
  | i :: rest, achievable, bestmove =>
    if (me ||| opp) &&& (1 <<< i) ≠ 0 then scan child me opp cutoff rest achievable bestmove
    else
      let tmp := me ||| (1 <<< i)
      match (if is_win tmp then some WIN
             else (child opp tmp (-cutoff) (-achievable)).map (fun r => -r)) with
      | none => none
      | some cur =>
        let achievable1 := if cur > achievable then cur else achievable
        let bestmove1 := if cur > achievable then i else bestmove
        if achievable1 ≥ cutoff then some (achievable1, bestmove1)
        else scan child me opp cutoff rest achievable1 bestmove1

/-- The function `alpha_beta`, with a bound `fuel` on the recursion depth.  The
result is the returned score together with the value stored through `best`
(`none` when nothing is stored, as on a full board); recursive calls pass
`NULL` and use the score only. -/
def alpha_beta : Nat → bitfield → bitfield → score → score → Option (score × Option Nat)
  | 0, _, _, _, _ => none
  | fuel + 1, me, opp, achievable, cutoff =>
    if me ||| opp = FULL then some (DRAW, none)
    else
      (scan (fun m o a c => (alpha_beta fuel m o a c).map Prod.fst)
        me opp cutoff cells achievable 0).map (fun r => (r.1, some r.2))

/-! ## The game loop of `main` -/

/-- The C enum `side`: `X = 0`, `O = 1`, `NONE = -1`. -/
inductive side where
  | X : side
  | O : side
  | NONE : side
  deriving DecidableEq

/-- The function `next_player`, `(p + 1) % 2`: `X ↦ O`, `O ↦ X`, and `NONE = -1 ↦ 0 = X`. -/
def next_player : side → side
  | side.X => side.O
  | side.O => side.X
  | side.NONE => side.X

/-- The variables `players[2]`, `cur_player` and `over` of `main`. -/
structure Game where
  players_X : bitfield
  players_O : bitfield
  cur_player : side
  over : Bool
  deriving DecidableEq

/-- The state of `main` before the loop: `players = {0}`, `cur_player = X`, `over = false`. -/
def start : Game := ⟨0, 0, side.X, false⟩

/-- Reading `players[p]`; index `NONE = -1` is outside the array (`none`). -/
def get_player (s : Game) : side → Option bitfield
  | side.X => some s.players_X
  | side.O => some s.players_O
  | side.NONE => none

/-- Writing `players[p] = v`; index `NONE = -1` is outside the array (`none`). -/
def set_player (s : Game) (v : bitfield) : side → Option Game
  | side.X => some { s with players_X := v }
  | side.O => some { s with players_O := v }
  | side.NONE => none

/-- The statements shared by both move handlers of `main`:
`players[p] |= (1 << move)`, then the win test, then the full-board test, then
`cur_player = next_player(cur_player)`. -/
def apply_move (s : Game) (p : side) (move : Nat) : Option Game :=
  match get_player s p with
  | none => none
  | some b =>
    match set_player s (b ||| (1 <<< move)) p with
    | none => none
    | some s1 =>
      let over1 :=
        if is_win (b ||| (1 <<< move)) then true
        else if s1.players_X ||| s1.players_O = FULL then true
        else s.over
      some { s1 with cur_player := next_player s.cur_player, over := over1 }

/-- The handler of a mouse click on cell `move` (`main`, the `SDL_MOUSEBUTTONDOWN`
branch): ignored when the game is over or it is the AI's turn, and when `move` is
not in `0..8` or the bit of `move` is set in `players[X]`. -/
def human_click (ai : side) (s : Game) (move : Nat) : Option Game :=
  if s.over = false ∧ s.cur_player ≠ ai then
    if move < 9 ∧ s.players_X &&& (1 <<< move) = 0 then apply_move s s.cur_player move
    else some s
  else some s

/-- The AI block of `main`: when it is the AI's turn, `alpha_beta` is called with the
window `(-INT_MAX, INT_MAX)` and the cell it stores in `move` is claimed.  The result
is `none` when `move` would be read uninitialised. -/
def ai_turn (fuel : Nat) (ai : side) (s : Game) : Option Game :=
  if s.over = false ∧ s.cur_player = ai then
    match get_player s ai, get_player s (next_player ai) with
    | some me, some opp =>
      match alpha_beta fuel me opp (-INT_MAX) INT_MAX with
      | some (_, some move) => apply_move s ai move
      | _ => none
    | _, _ => none
  else some s

/-- The events the loop of `main` reacts to: `SDL_QUIT`, and `SDL_MOUSEBUTTONDOWN` at a
position whose cell index `y * 3 + x` is `move`. -/
inductive Event where
  | quit : Event
  | click (move : Nat) : Event
  deriving DecidableEq

/-- The body of the `while (SDL_PollEvent(&e))` loop for one event. -/
def handle_event (ai : side) (s : Game) : Event → Option Game
  | Event.quit => some { s with over := true }
  | Event.click move => human_click ai s move

/-- One pass of the `while (!over)` loop of `main`: the pending events are handled in
order, then the AI block runs. -/
def loop_pass (fuel : Nat) (ai : side) (s : Game) (events : List Event) : Option Game :=
  if s.over = true then some s
  else
    match events.foldlM (handle_event ai) s with
    | none => none
    | some s1 => ai_turn fuel ai s1

/-- The loop of `main`, run from the initial state on the events of successive passes. -/
def main_loop (fuel : Nat) (ai : side) (passes : List (List Event)) : Option Game :=
  passes.foldlM (loop_pass fuel ai) start

/-- The states of a game in which the human only ever clicks an empty cell: from
`start`, by a quit event, by `human_click` on an empty cell in `0..8`, and by
`ai_turn` run with enough fuel. -/
inductive Reach (ai : side) : Game → Prop where
  | init : Reach ai start
  | quit (s s1 : Game) : Reach ai s → handle_event ai s Event.quit = some s1 → Reach ai s1
  | click (s s1 : Game) (move : Nat) : Reach ai s → move < 9 →
      (s.players_X ||| s.players_O) &&& (1 <<< move) = 0 →
      handle_event ai s (Event.click move) = some s1 → Reach ai s1
  | reply (s s1 : Game) (fuel : Nat) : Reach ai s → 10 ≤ fuel →
      ai_turn fuel ai s = some s1 → Reach ai s1

/-! ## The game-theoretic value, as the specification words it -/

/-- Cell `i` is empty in the union board `x`: the test of the `continue` statement fails. -/
def emptyAt (x : bitfield) (i : Nat) : Bool := decide (x &&& (1 <<< i) = 0)

/-- The empty cells of the union board `x`, in ascending order. -/
def emptyCells (x : bitfield) : List Nat := cells.filter (emptyAt x)

/-- The value of claiming cell `i`: `+1` if it completes a line of the mover, else
the negation of the value `val` of the position handed to the opponent. -/
def moveValue (val : bitfield → bitfield → Int) (me opp : bitfield) (i : Nat) : Int :=
  if is_win (me ||| (1 <<< i)) then 1 else - val opp (me ||| (1 <<< i))

/-- The maximum of a list of integers (`0` for the empty list, which arises for no
position that has an empty cell). -/
def maxList : List Int → Int
  | [] => 0
  | x :: xs => xs.foldl max x

/-- The unpruned negamax value, unfolded to depth `n`: `0` on a full board, else the
maximum of the move values over the empty cells. -/
def gameValueN : Nat → bitfield → bitfield → Int
  | 0, _, _ => 0
  | n + 1, me, opp =>
    if me ||| opp = FULL then 0
    else maxList ((emptyCells (me ||| opp)).map
      (fun i => moveValue (fun m o => gameValueN n m o) me opp i))

/-- The game-theoretic value of a position for the side to move; depth ten covers
every position of a nine-cell board (see `gameValue_eq`). -/
def gameValue (me opp : bitfield) : Int := gameValueN 10 me opp

/-- A line of the board as the specification lists them: a row `{3r, 3r+1, 3r+2}`,
a column `{c, c+3, c+6}`, or one of the diagonals `{0,4,8}` and `{2,4,6}`. -/
def boardLines : List (List Nat) :=
  ((List.range 3).map (fun r => [3 * r, 3 * r + 1, 3 * r + 2])) ++
  ((List.range 3).map (fun c => [c, c + 3, c + 6])) ++
  [[0, 4, 8], [2, 4, 6]]

/-- The occupancy set of a list of cells. -/
def lineMask (line : List Nat) : bitfield :=
  line.foldl (fun acc i => acc ||| (1 <<< i)) 0

/-- The occupancy `b` contains all three cells of at least one board line. -/
def hasLine (b : bitfield) : Bool :=
  boardLines.any (fun line => line.all (fun i => b.testBit i))


/-! ## Auxiliary notions for the correctness proofs -/

/-- What a search with window `(a, c)` may return on a position of exact value `v`:
the value itself inside the window, a bound on the proper side outside it. -/
def Sound (a c v r : Int) : Prop :=
  (a < v → v < c → r = v) ∧ (v ≤ a → r ≤ a) ∧ (c ≤ v → c ≤ r)

/-- The loop of `alpha_beta` run with the exact move values and without pruning. -/
def bestOf (me opp : bitfield) : List Nat → Int → Nat → Int × Nat
  | [], a, b => (a, b)
  | i :: rest, a, b =>
    if emptyAt (me ||| opp) i = true then
      if moveValue gameValue me opp i > a then
        bestOf me opp rest (moveValue gameValue me opp i) i
      else bestOf me opp rest a b
    else bestOf me opp rest a b

/-- The invariant of a game against the AI `ai`, with `me` the AI's occupancy and
`opp` the human's: the human has no line, and while the game runs the board is not
full and the side to move faces a value that keeps the AI from losing. -/
def Inv (ai : side) (s : Game) : Prop :=
  ∃ me opp, get_player s ai = some me ∧ get_player s (next_player ai) = some opp ∧
    me < 512 ∧ opp < 512 ∧ is_win opp = false ∧
    (s.cur_player = ai ∨ s.cur_player = next_player ai) ∧
    (s.over = false → me ||| opp ≠ FULL ∧
      (s.cur_player = ai → 0 ≤ gameValue me opp) ∧
      (s.cur_player = next_player ai → gameValue opp me ≤ 0))

/-! ## Bit-level facts -/

theorem and_bit_eq_zero_iff (x i : Nat) : x &&& (1 <<< i) = 0 ↔ x.testBit i = false := by
  rw [Nat.one_shiftLeft]
  constructor
  · intro h
    have h1 : (x &&& 2 ^ i).testBit i = false := by rw [h]; exact Nat.zero_testBit i
    rw [Nat.testBit_and, Nat.testBit_two_pow_self] at h1
    simpa using h1
  · intro h
    apply Nat.eq_of_testBit_eq
    intro j
    rw [Nat.testBit_and, Nat.testBit_two_pow, Nat.zero_testBit]
    by_cases hij : i = j
    · subst hij; simp [h]
    · simp [hij]

theorem emptyAt_iff (x i : Nat) : emptyAt x i = true ↔ x &&& (1 <<< i) = 0 := by
  unfold emptyAt
  exact decide_eq_true_iff

theorem emptyAt_set (x i j : Nat) :
    emptyAt (x ||| (1 <<< i)) j = (emptyAt x j && decide (j ≠ i)) := by
  unfold emptyAt
  rw [Bool.eq_iff_iff]
  simp only [decide_eq_true_eq, Bool.and_eq_true, and_bit_eq_zero_iff, Nat.testBit_or,
    Bool.or_eq_false_iff]
  rw [Nat.one_shiftLeft, Nat.testBit_two_pow]
  simp only [decide_eq_false_iff_not, ne_eq]
  constructor
  · rintro ⟨h1, h2⟩; exact ⟨h1, fun h => h2 h.symm⟩
  · rintro ⟨h1, h2⟩; exact ⟨h1, fun h => h2 h.symm⟩

theorem mem_cells (i : Nat) : i ∈ cells ↔ i < 9 := by
  unfold cells
  simp only [List.mem_cons, List.mem_singleton, List.not_mem_nil, or_false]
  omega

theorem mem_emptyCells (x i : Nat) : i ∈ emptyCells x ↔ i < 9 ∧ emptyAt x i = true := by
  unfold emptyCells
  rw [List.mem_filter, mem_cells]

theorem emptyCells_length_le (x : Nat) : (emptyCells x).length ≤ 9 := by
  unfold emptyCells
  exact List.length_filter_le _ _

theorem emptyCells_set_lt (x i : Nat) (hi : i < 9) (he : emptyAt x i = true) :
    (emptyCells (x ||| (1 <<< i))).length < (emptyCells x).length := by
  have h1 : emptyCells (x ||| (1 <<< i)) = (emptyCells x).filter (fun j => decide (j ≠ i)) := by
    unfold emptyCells
    rw [List.filter_filter]
    congr 1
    funext j
    rw [emptyAt_set, Bool.and_comm]
  rw [h1]
  apply List.length_filter_lt_length_iff_exists.mpr
  exact ⟨i, (mem_emptyCells x i).mpr ⟨hi, he⟩, by simp⟩

/-- The union board after the mover claims cell `i`, seen from the opponent. -/
theorem child_union (me opp i : Nat) : opp ||| (me ||| (1 <<< i)) = (me ||| opp) ||| (1 <<< i) := by
  rw [Nat.lor_comm opp, Nat.lor_assoc, Nat.lor_assoc, Nat.lor_comm opp]

theorem child_emptyCells_lt (me opp i : Nat) (hi : i < 9) (he : emptyAt (me ||| opp) i = true) :
    (emptyCells (opp ||| (me ||| (1 <<< i)))).length < (emptyCells (me ||| opp)).length := by
  rw [child_union]
  exact emptyCells_set_lt _ _ hi he

theorem bit_lt (i : Nat) (hi : i < 9) : 1 <<< i < 2 ^ 9 := by
  rw [Nat.one_shiftLeft]
  exact Nat.pow_lt_pow_right (by decide) hi

theorem set_lt (x i : Nat) (hx : x < 512) (hi : i < 9) : x ||| (1 <<< i) < 512 :=
  @Nat.or_lt_two_pow _ _ 9 hx (bit_lt i hi)

theorem union_lt (x y : Nat) (hx : x < 512) (hy : y < 512) : x ||| y < 512 :=
  @Nat.or_lt_two_pow _ _ 9 hx hy

theorem emptyCells_ne_nil_aux (x : Nat) (hx : x < 512) (hne : x ≠ 511) : emptyCells x ≠ [] := by
  intro hnil
  apply hne
  apply Nat.eq_of_testBit_eq
  intro k
  rw [show (511 : Nat) = 2 ^ 9 - 1 from rfl, Nat.testBit_two_pow_sub_one]
  by_cases hk : k < 9
  · rw [decide_eq_true hk]
    by_contra hbit
    have he : emptyAt x k = true :=
      (emptyAt_iff x k).mpr ((and_bit_eq_zero_iff x k).mpr (by simpa using hbit))
    have hmem := (mem_emptyCells x k).mpr ⟨hk, he⟩
    rw [hnil] at hmem
    exact List.not_mem_nil k hmem
  · rw [decide_eq_false hk]
    apply Nat.testBit_lt_two_pow
    exact lt_of_lt_of_le hx (Nat.pow_le_pow_right (Nat.succ_pos 1) (not_lt.mp hk))

theorem emptyCells_ne_nil (me opp : Nat) (hme : me < 512) (hopp : opp < 512)
    (hfull : me ||| opp ≠ FULL) : emptyCells (me ||| opp) ≠ [] :=
  emptyCells_ne_nil_aux _ (union_lt me opp hme hopp) hfull

/-! ## The value function -/

theorem gameValueN_step (n me opp : Nat) :
    gameValueN (n + 1) me opp =
      if me ||| opp = FULL then 0
      else maxList ((emptyCells (me ||| opp)).map
        (moveValue (fun m o => gameValueN n m o) me opp)) := by
  rw [gameValueN]

theorem moveValue_congr (f g : bitfield → bitfield → Int) (me opp i : Nat)
    (h : is_win (me ||| 1 <<< i) = false → f opp (me ||| 1 <<< i) = g opp (me ||| 1 <<< i)) :
    moveValue f me opp i = moveValue g me opp i := by
  unfold moveValue
  by_cases hw : is_win (me ||| 1 <<< i) = true
  · rw [if_pos hw, if_pos hw]
  · rw [if_neg hw, if_neg hw, h (by simpa using hw)]

theorem gameValueN_succ (n : Nat) : ∀ me opp : Nat,
    (emptyCells (me ||| opp)).length < n → gameValueN (n + 1) me opp = gameValueN n me opp := by
  induction n with
  | zero => intro me opp h; exact absurd h (Nat.not_lt_zero _)
  | succ k ih =>
    intro me opp h
    rw [gameValueN_step (k + 1), gameValueN_step k]
    have hmap : (emptyCells (me ||| opp)).map (moveValue (fun m o => gameValueN (k + 1) m o) me opp)
        = (emptyCells (me ||| opp)).map (moveValue (fun m o => gameValueN k m o) me opp) := by
      apply List.map_congr_left
      intro i hi
      rw [mem_emptyCells] at hi
      apply moveValue_congr
      intro _
      have := child_emptyCells_lt me opp i hi.1 hi.2
      exact ih opp (me ||| 1 <<< i) (by omega)
    rw [hmap]

theorem gameValue_eq (me opp : Nat) :
    gameValue me opp =
      if me ||| opp = FULL then 0
      else maxList ((emptyCells (me ||| opp)).map (moveValue gameValue me opp)) := by
  have hmap : (emptyCells (me ||| opp)).map (moveValue (fun m o => gameValueN 9 m o) me opp)
      = (emptyCells (me ||| opp)).map (moveValue gameValue me opp) := by
    apply List.map_congr_left
    intro i hi
    rw [mem_emptyCells] at hi
    apply moveValue_congr
    intro _
    have h1 := child_emptyCells_lt me opp i hi.1 hi.2
    have h2 := emptyCells_length_le (me ||| opp)
    exact (gameValueN_succ 9 opp (me ||| 1 <<< i) (by omega)).symm
  rw [← hmap]
  exact gameValueN_step 9 me opp


theorem maxList_cons (x : Int) (xs : List Int) : maxList (x :: xs) = xs.foldl max x := rfl

theorem foldl_max_left (xs : List Int) : ∀ a x : Int,
    xs.foldl max (max a x) = max a (xs.foldl max x) := by
  induction xs with
  | nil => intro a x; rfl
  | cons y ys ih =>
    intro a x
    rw [List.foldl_cons, List.foldl_cons, max_assoc, ih]

theorem foldl_max_ge (xs : List Int) : ∀ a : Int, a ≤ xs.foldl max a := by
  induction xs with
  | nil => intro a; exact le_refl a
  | cons y ys ih => intro a; rw [List.foldl_cons]; exact le_trans (le_max_left a y) (ih _)

theorem foldl_max_bounds (lo hi : Int) (xs : List Int) (h : ∀ x ∈ xs, lo ≤ x ∧ x ≤ hi) :
    ∀ a : Int, lo ≤ a → a ≤ hi → lo ≤ xs.foldl max a ∧ xs.foldl max a ≤ hi := by
  induction xs with
  | nil => intro a h1 h2; exact ⟨h1, h2⟩
  | cons y ys ih =>
    intro a h1 h2
    rw [List.foldl_cons]
    have hy := h y (List.mem_cons_self y ys)
    exact ih (fun x hx => h x (List.mem_cons_of_mem y hx)) _
      (le_trans h1 (le_max_left a y)) (max_le h2 hy.2)

theorem maxList_bounds (xs : List Int) (h : ∀ x ∈ xs, -1 ≤ x ∧ x ≤ 1) :
    -1 ≤ maxList xs ∧ maxList xs ≤ 1 := by
  cases xs with
  | nil => exact ⟨by decide, by decide⟩
  | cons y ys =>
    rw [maxList_cons]
    have hy := h y (List.mem_cons_self y ys)
    exact foldl_max_bounds (-1) 1 ys (fun x hx => h x (List.mem_cons_of_mem y hx)) y hy.1 hy.2

theorem gameValueN_bounds (n : Nat) : ∀ me opp : Nat,
    -1 ≤ gameValueN n me opp ∧ gameValueN n me opp ≤ 1 := by
  induction n with
  | zero => intro me opp; rw [gameValueN]; exact ⟨by decide, by decide⟩
  | succ k ih =>
    intro me opp
    rw [gameValueN_step]
    by_cases hf : me ||| opp = FULL
    · rw [if_pos hf]; exact ⟨by decide, by decide⟩
    · rw [if_neg hf]
      apply maxList_bounds
      intro x hx
      rw [List.mem_map] at hx
      obtain ⟨i, _, rfl⟩ := hx
      unfold moveValue
      by_cases hw : is_win (me ||| 1 <<< i) = true
      · rw [if_pos hw]; exact ⟨by decide, by decide⟩
      · rw [if_neg hw]
        show -1 ≤ -gameValueN k opp (me ||| 1 <<< i) ∧ -gameValueN k opp (me ||| 1 <<< i) ≤ 1
        have := ih opp (me ||| 1 <<< i)
        constructor <;> omega

theorem gameValue_bounds (me opp : Nat) : -1 ≤ gameValue me opp ∧ gameValue me opp ≤ 1 :=
  gameValueN_bounds 10 me opp

theorem moveValue_bounds (me opp i : Nat) :
    -1 ≤ moveValue gameValue me opp i ∧ moveValue gameValue me opp i ≤ 1 := by
  unfold moveValue
  by_cases hw : is_win (me ||| 1 <<< i) = true
  · rw [if_pos hw]; exact ⟨by decide, by decide⟩
  · rw [if_neg hw]
    have := gameValue_bounds opp (me ||| 1 <<< i)
    constructor <;> omega

/-! ## The unpruned scan -/

theorem bestOf_nil (me opp : Nat) (a : Int) (b : Nat) : bestOf me opp [] a b = (a, b) := rfl

theorem bestOf_cons (me opp i : Nat) (rest : List Nat) (a : Int) (b : Nat) :
    bestOf me opp (i :: rest) a b =
      if emptyAt (me ||| opp) i = true then
        if moveValue gameValue me opp i > a then
          bestOf me opp rest (moveValue gameValue me opp i) i
        else bestOf me opp rest a b
      else bestOf me opp rest a b := rfl

theorem bestOf_fst (me opp : Nat) (l : List Nat) : ∀ (a : Int) (b : Nat),
    (bestOf me opp l a b).1 =
      ((l.filter (emptyAt (me ||| opp))).map (moveValue gameValue me opp)).foldl max a := by
  induction l with
  | nil => intro a b; rfl
  | cons i rest ih =>
    intro a b
    rw [bestOf_cons]
    by_cases he : emptyAt (me ||| opp) i = true
    · rw [if_pos he, List.filter_cons_of_pos he, List.map_cons, List.foldl_cons]
      by_cases hgt : moveValue gameValue me opp i > a
      · rw [if_pos hgt, ih, max_eq_right (le_of_lt hgt)]
      · rw [if_neg hgt, ih, max_eq_left (not_lt.mp hgt)]
    · rw [if_neg he, List.filter_cons_of_neg he, ih]

theorem bestOf_fst_ge (me opp : Nat) (l : List Nat) (a : Int) (b : Nat) :
    a ≤ (bestOf me opp l a b).1 := by
  rw [bestOf_fst]; exact foldl_max_ge _ a

theorem bestOf_cells_fst (me opp : Nat) (hme : me < 512) (hopp : opp < 512)
    (hfull : me ||| opp ≠ FULL) (a : Int) (b : Nat) :
    (bestOf me opp cells a b).1 = max a (gameValue me opp) := by
  rw [bestOf_fst, gameValue_eq, if_neg hfull]
  have hne := emptyCells_ne_nil me opp hme hopp hfull
  unfold emptyCells at hne ⊢
  cases hl : List.filter (emptyAt (me ||| opp)) cells with
  | nil => exact absurd hl hne
  | cons e es =>
    rw [List.map_cons, maxList_cons, List.foldl_cons, foldl_max_left]

/-- The unpruned scan either keeps its start values (no empty cell improves on `a`)
or ends on the first empty cell whose move value is the greatest. -/
theorem bestOf_spec (me opp : Nat) (l : List Nat) (hl : l.Pairwise (· < ·)) :
    ∀ (a : Int) (b : Nat),
      ((bestOf me opp l a b) = (a, b) ∧
        ∀ i ∈ l, emptyAt (me ||| opp) i = true → moveValue gameValue me opp i ≤ a) ∨
      (a < (bestOf me opp l a b).1 ∧ (bestOf me opp l a b).2 ∈ l ∧
        emptyAt (me ||| opp) (bestOf me opp l a b).2 = true ∧
        moveValue gameValue me opp (bestOf me opp l a b).2 = (bestOf me opp l a b).1 ∧
        (∀ i ∈ l, emptyAt (me ||| opp) i = true →
          moveValue gameValue me opp i ≤ (bestOf me opp l a b).1) ∧
        (∀ i ∈ l, emptyAt (me ||| opp) i = true → i < (bestOf me opp l a b).2 →
          moveValue gameValue me opp i < (bestOf me opp l a b).1)) := by
  induction l with
  | nil => intro a b; left; exact ⟨rfl, fun i hi => absurd hi (List.not_mem_nil i)⟩
  | cons i rest ih =>
    intro a b
    rw [List.pairwise_cons] at hl
    have ih1 := ih hl.2
    rw [bestOf_cons]
    by_cases he : emptyAt (me ||| opp) i = true
    · rw [if_pos he]
      by_cases hgt : moveValue gameValue me opp i > a
      · rw [if_pos hgt]
        right
        rcases ih1 (moveValue gameValue me opp i) i with ⟨h1, h2⟩ | ⟨h1, h2, h3, h4, h5, h6⟩
        · rw [h1]
          refine ⟨hgt, List.mem_cons_self i rest, he, rfl, ?_, ?_⟩
          · intro j hj hje
            rcases List.mem_cons.mp hj with rfl | hj
            · exact le_refl _
            · exact h2 j hj hje
          · intro j hj _ hlt
            rcases List.mem_cons.mp hj with rfl | hj
            · exact absurd hlt (lt_irrefl _)
            · exact absurd (hl.1 j hj) (not_lt_of_gt hlt)
        · refine ⟨lt_trans hgt h1, List.mem_cons_of_mem i h2, h3, h4, ?_, ?_⟩
          · intro j hj hje
            rcases List.mem_cons.mp hj with rfl | hj
            · exact le_of_lt h1
            · exact h5 j hj hje
          · intro j hj hje hlt
            rcases List.mem_cons.mp hj with rfl | hj
            · exact h1
            · exact h6 j hj hje hlt
      · rw [if_neg hgt]
        rcases ih1 a b with ⟨h1, h2⟩ | ⟨h1, h2, h3, h4, h5, h6⟩
        · left
          refine ⟨h1, ?_⟩
          intro j hj hje
          rcases List.mem_cons.mp hj with rfl | hj
          · exact not_lt.mp hgt
          · exact h2 j hj hje
        · right
          refine ⟨h1, List.mem_cons_of_mem i h2, h3, h4, ?_, ?_⟩
          · intro j hj hje
            rcases List.mem_cons.mp hj with rfl | hj
            · exact le_trans (not_lt.mp hgt) (le_of_lt h1)
            · exact h5 j hj hje
          · intro j hj hje hlt
            rcases List.mem_cons.mp hj with rfl | hj
            · exact lt_of_le_of_lt (not_lt.mp hgt) h1
            · exact h6 j hj hje hlt
    · rw [if_neg he]
      rcases ih1 a b with ⟨h1, h2⟩ | ⟨h1, h2, h3, h4, h5, h6⟩
      · left
        refine ⟨h1, ?_⟩
        intro j hj hje
        rcases List.mem_cons.mp hj with rfl | hj
        · exact absurd hje he
        · exact h2 j hj hje
      · right
        refine ⟨h1, List.mem_cons_of_mem i h2, h3, h4, ?_, ?_⟩
        · intro j hj hje
          rcases List.mem_cons.mp hj with rfl | hj
          · exact absurd hje he
          · exact h5 j hj hje
        · intro j hj hje hlt
          rcases List.mem_cons.mp hj with rfl | hj
          · exact absurd hje he
          · exact h6 j hj hje hlt

theorem cells_pairwise : cells.Pairwise (· < ·) := by
  unfold cells
  decide


/-! ## The loop of `alpha_beta` -/

theorem scan_nil (child : bitfield → bitfield → score → score → Option score)
    (me opp : Nat) (c a : Int) (b : Nat) : scan child me opp c [] a b = some (a, b) := rfl

theorem scan_cons_skip (child : bitfield → bitfield → score → score → Option score)
    (me opp : Nat) (c a : Int) (b i : Nat) (rest : List Nat)
    (he : emptyAt (me ||| opp) i = false) :
    scan child me opp c (i :: rest) a b = scan child me opp c rest a b := by
  have h : (me ||| opp) &&& (1 <<< i) ≠ 0 := by
    intro h0
    rw [(emptyAt_iff _ _).mpr h0] at he
    exact Bool.noConfusion he
  rw [scan, if_pos h]

/-- The score `cur` the loop body computes for the empty cell `i`. -/
theorem scan_cons_empty (child : bitfield → bitfield → score → score → Option score)
    (me opp : Nat) (c a : Int) (b i : Nat) (rest : List Nat)
    (he : emptyAt (me ||| opp) i = true) (cur : Int)
    (hcur : (if is_win (me ||| 1 <<< i) = true then some WIN
             else (child opp (me ||| 1 <<< i) (-c) (-a)).map (fun r => -r)) = some cur) :
    scan child me opp c (i :: rest) a b =
      if (if cur > a then cur else a) ≥ c then
        some (if cur > a then cur else a, if cur > a then i else b)
      else scan child me opp c rest (if cur > a then cur else a) (if cur > a then i else b) := by
  have h : ¬ ((me ||| opp) &&& (1 <<< i) ≠ 0) := by
    rw [not_not]; exact (emptyAt_iff _ _).mp he
  rw [scan, if_neg h]
  simp only [hcur]

theorem scan_cons_none (child : bitfield → bitfield → score → score → Option score)
    (me opp : Nat) (c a : Int) (b i : Nat) (rest : List Nat)
    (he : emptyAt (me ||| opp) i = true)
    (hcur : (if is_win (me ||| 1 <<< i) = true then some WIN
             else (child opp (me ||| 1 <<< i) (-c) (-a)).map (fun r => -r)) = none) :
    scan child me opp c (i :: rest) a b = none := by
  have h : ¬ ((me ||| opp) &&& (1 <<< i) ≠ 0) := by
    rw [not_not]; exact (emptyAt_iff _ _).mp he
  rw [scan, if_neg h]
  simp only [hcur]

/-- The loop returns whenever the recursive calls on its empty cells do. -/
theorem scan_total (child : bitfield → bitfield → score → score → Option score)
    (me opp : Nat) (c : Int) (l : List Nat)
    (hch : ∀ i ∈ l, emptyAt (me ||| opp) i = true →
      ∀ a1 c1 : Int, ∃ r, child opp (me ||| 1 <<< i) a1 c1 = some r) :
    ∀ (a : Int) (b : Nat), ∃ r, scan child me opp c l a b = some r := by
  induction l with
  | nil => intro a b; exact ⟨(a, b), rfl⟩
  | cons i rest ih =>
    intro a b
    have ih1 := ih (fun j hj => hch j (List.mem_cons_of_mem i hj))
    cases he : emptyAt (me ||| opp) i with
    | false => rw [scan_cons_skip child me opp c a b i rest he]; exact ih1 a b
    | true =>
      have hcur : ∃ cur, (if is_win (me ||| 1 <<< i) = true then some WIN
          else (child opp (me ||| 1 <<< i) (-c) (-a)).map (fun r => -r)) = some cur := by
        by_cases hw : is_win (me ||| 1 <<< i) = true
        · rw [if_pos hw]; exact ⟨WIN, rfl⟩
        · rw [if_neg hw]
          obtain ⟨r, hr⟩ := hch i (List.mem_cons_self i rest) he (-c) (-a)
          rw [hr]; exact ⟨-r, rfl⟩
      obtain ⟨cur, hcur⟩ := hcur
      rw [scan_cons_empty child me opp c a b i rest he cur hcur]
      by_cases hbr : (if cur > a then cur else a) ≥ c
      · rw [if_pos hbr]; exact ⟨_, rfl⟩
      · rw [if_neg hbr]; exact ih1 _ _

/-- The move the loop ends on: the start value when no score exceeded `a`, else an
empty cell of the list. -/
theorem scan_move (child : bitfield → bitfield → score → score → Option score)
    (me opp : Nat) (c : Int) (l : List Nat) :
    ∀ (a : Int) (b : Nat) (r : Int) (m : Nat), scan child me opp c l a b = some (r, m) →
      (r = a ∧ m = b) ∨ (a < r ∧ m ∈ l ∧ emptyAt (me ||| opp) m = true) := by
  induction l with
  | nil =>
    intro a b r m h
    rw [scan_nil] at h
    injection h with h
    injection h with h1 h2
    exact Or.inl ⟨h1.symm, h2.symm⟩
  | cons i rest ih =>
    intro a b r m h
    cases he : emptyAt (me ||| opp) i with
    | false =>
      rw [scan_cons_skip child me opp c a b i rest he] at h
      rcases ih a b r m h with h1 | ⟨h1, h2, h3⟩
      · exact Or.inl h1
      · exact Or.inr ⟨h1, List.mem_cons_of_mem i h2, h3⟩
    | true =>
      cases hcur : (if is_win (me ||| 1 <<< i) = true then some WIN
          else (child opp (me ||| 1 <<< i) (-c) (-a)).map (fun r => -r)) with
      | none =>
        rw [scan_cons_none child me opp c a b i rest he hcur] at h
        exact Option.noConfusion h
      | some cur =>
        rw [scan_cons_empty child me opp c a b i rest he cur hcur] at h
        by_cases hgt : cur > a
        · simp only [if_pos hgt] at h
          by_cases hbr : cur ≥ c
          · rw [if_pos hbr] at h
            injection h with h
            injection h with h1 h2
            subst h1; subst h2
            exact Or.inr ⟨hgt, List.mem_cons_self _ _, he⟩
          · rw [if_neg hbr] at h
            rcases ih cur i r m h with ⟨h1, h2⟩ | ⟨h1, h2, h3⟩
            · subst h1; subst h2
              exact Or.inr ⟨hgt, List.mem_cons_self _ _, he⟩
            · exact Or.inr ⟨lt_trans hgt h1, List.mem_cons_of_mem i h2, h3⟩
        · simp only [if_neg hgt] at h
          by_cases hbr : a ≥ c
          · rw [if_pos hbr] at h
            injection h with h
            injection h with h1 h2
            exact Or.inl ⟨h1.symm, h2.symm⟩
          · rw [if_neg hbr] at h
            rcases ih a b r m h with h1 | ⟨h1, h2, h3⟩
            · exact Or.inl h1
            · exact Or.inr ⟨h1, List.mem_cons_of_mem i h2, h3⟩

theorem Sound_neg (a c v r : Int) (h : Sound (-c) (-a) v r) : Sound a c (-v) (-r) := by
  unfold Sound at h ⊢
  obtain ⟨h1, h2, h3⟩ := h
  refine ⟨?_, ?_, ?_⟩
  · intro p q; have := h1 (by omega) (by omega); omega
  · intro p; have := h3 (by omega); omega
  · intro p; have := h2 (by omega); omega

/-- The pruned loop against the unpruned one: below the cutoff both end in the same
state, and when the exact scan reaches the cutoff the pruned one returns at least it. -/
theorem scan_sound (child : bitfield → bitfield → score → score → Option score)
    (me opp : Nat) (c : Int) (l : List Nat)
    (hch : ∀ i ∈ l, emptyAt (me ||| opp) i = true → is_win (me ||| 1 <<< i) = false →
      ∀ a1 c1 : Int, a1 < c1 → ∃ r, child opp (me ||| 1 <<< i) a1 c1 = some r ∧
        Sound a1 c1 (gameValue opp (me ||| 1 <<< i)) r) :
    ∀ (a : Int) (b : Nat), a < c →
      ∃ r m, scan child me opp c l a b = some (r, m) ∧
        (((bestOf me opp l a b).1 < c ∧ (r, m) = bestOf me opp l a b) ∨
         (c ≤ (bestOf me opp l a b).1 ∧ c ≤ r)) := by
  induction l with
  | nil =>
    intro a b hac
    exact ⟨a, b, rfl, Or.inl ⟨hac, rfl⟩⟩
  | cons i rest ih =>
    intro a b hac
    have ih1 := ih (fun j hj => hch j (List.mem_cons_of_mem i hj))
    rw [bestOf_cons]
    cases he : emptyAt (me ||| opp) i with
    | false =>
      rw [scan_cons_skip child me opp c a b i rest he, if_neg (by simp)]
      exact ih1 a b hac
    | true =>
      rw [if_pos rfl]
      have hcur : ∃ cur, (if is_win (me ||| 1 <<< i) = true then some WIN
          else (child opp (me ||| 1 <<< i) (-c) (-a)).map (fun r => -r)) = some cur ∧
          Sound a c (moveValue gameValue me opp i) cur := by
        unfold moveValue
        by_cases hw : is_win (me ||| 1 <<< i) = true
        · rw [if_pos hw, if_pos hw]
          refine ⟨WIN, rfl, ?_⟩
          unfold Sound WIN
          exact ⟨fun _ _ => rfl, fun h => h, fun h => h⟩
        · rw [if_neg hw, if_neg hw]
          obtain ⟨r, hr, hs⟩ := hch i (List.mem_cons_self i rest) he (by simpa using hw)
            (-c) (-a) (by omega)
          rw [hr]
          exact ⟨-r, rfl, Sound_neg a c _ r hs⟩
      obtain ⟨cur, hcur, hs⟩ := hcur
      rw [scan_cons_empty child me opp c a b i rest he cur hcur]
      unfold Sound at hs
      obtain ⟨hs1, hs2, hs3⟩ := hs
      by_cases hle : moveValue gameValue me opp i ≤ a
      · have hc := hs2 hle
        have hn : ¬ cur > a := not_lt.mpr hc
        rw [if_neg hn, if_neg hn, if_neg (not_le.mpr hac), if_neg (not_lt.mpr hle)]
        exact ih1 a b hac
      · have hgt : moveValue gameValue me opp i > a := not_le.mp hle
        rw [if_pos hgt]
        by_cases hlt : moveValue gameValue me opp i < c
        · have hc := hs1 hgt hlt
          rw [hc, if_pos hgt, if_pos hgt, if_neg (not_le.mpr hlt)]
          exact ih1 _ i hlt
        · have hge : c ≤ moveValue gameValue me opp i := not_lt.mp hlt
          have hc := hs3 hge
          have hca : cur > a := lt_of_lt_of_le hac hc
          rw [if_pos hca, if_pos hca, if_pos hc]
          exact ⟨cur, i, rfl, Or.inr ⟨le_trans hge (bestOf_fst_ge _ _ _ _ _), hc⟩⟩


/-! ## The recursion of `alpha_beta` -/

theorem alpha_beta_zero (me opp : Nat) (a c : Int) : alpha_beta 0 me opp a c = none := rfl

theorem alpha_beta_step (fuel me opp : Nat) (a c : Int) :
    alpha_beta (fuel + 1) me opp a c =
      if me ||| opp = FULL then some (DRAW, none)
      else (scan (fun m o a1 c1 => (alpha_beta fuel m o a1 c1).map Prod.fst)
        me opp c cells a 0).map (fun r => (r.1, some r.2)) := by
  rw [alpha_beta]

/-- The search returns: a recursion depth above the number of empty cells is enough. -/
theorem alpha_beta_total (fuel : Nat) : ∀ (me opp : Nat) (a c : Int),
    (emptyCells (me ||| opp)).length < fuel → ∃ r, alpha_beta fuel me opp a c = some r := by
  induction fuel with
  | zero => intro me opp a c h; exact absurd h (Nat.not_lt_zero _)
  | succ k ih =>
    intro me opp a c h
    rw [alpha_beta_step]
    by_cases hf : me ||| opp = FULL
    · rw [if_pos hf]; exact ⟨_, rfl⟩
    · rw [if_neg hf]
      obtain ⟨r, hr⟩ := scan_total (fun m o a1 c1 => (alpha_beta k m o a1 c1).map Prod.fst)
        me opp c cells (by
          intro i hi he a1 c1
          have hlt := child_emptyCells_lt me opp i ((mem_cells i).mp hi) he
          obtain ⟨r, hr⟩ := ih opp (me ||| 1 <<< i) a1 c1 (by omega)
          exact ⟨r.1, by simp only [hr, Option.map_some']⟩) a 0
      rw [hr]; exact ⟨_, rfl⟩

/-- More fuel does not change a result. -/
theorem scan_mono (child1 child2 : bitfield → bitfield → score → score → Option score)
    (h : ∀ m o a c r, child1 m o a c = some r → child2 m o a c = some r)
    (me opp : Nat) (c : Int) (l : List Nat) :
    ∀ (a : Int) (b : Nat) (x : Int × Nat), scan child1 me opp c l a b = some x →
      scan child2 me opp c l a b = some x := by
  induction l with
  | nil => intro a b x hx; exact hx
  | cons i rest ih =>
    intro a b x hx
    cases he : emptyAt (me ||| opp) i with
    | false =>
      rw [scan_cons_skip child1 me opp c a b i rest he] at hx
      rw [scan_cons_skip child2 me opp c a b i rest he]
      exact ih a b x hx
    | true =>
      cases hcur : (if is_win (me ||| 1 <<< i) = true then some WIN
          else (child1 opp (me ||| 1 <<< i) (-c) (-a)).map (fun r => -r)) with
      | none =>
        rw [scan_cons_none child1 me opp c a b i rest he hcur] at hx
        exact Option.noConfusion hx
      | some cur =>
        have hcur2 : (if is_win (me ||| 1 <<< i) = true then some WIN
            else (child2 opp (me ||| 1 <<< i) (-c) (-a)).map (fun r => -r)) = some cur := by
          by_cases hw : is_win (me ||| 1 <<< i) = true
          · rw [if_pos hw] at hcur ⊢; exact hcur
          · rw [if_neg hw] at hcur ⊢
            cases h1 : child1 opp (me ||| 1 <<< i) (-c) (-a) with
            | none => rw [h1] at hcur; exact Option.noConfusion hcur
            | some r => rw [h1] at hcur; rw [h _ _ _ _ r h1]; exact hcur
        rw [scan_cons_empty child1 me opp c a b i rest he cur hcur] at hx
        rw [scan_cons_empty child2 me opp c a b i rest he cur hcur2]
        by_cases hbr : (if cur > a then cur else a) ≥ c
        · rw [if_pos hbr] at hx ⊢; exact hx
        · rw [if_neg hbr] at hx ⊢; exact ih _ _ x hx

theorem alpha_beta_succ (fuel : Nat) : ∀ (me opp : Nat) (a c : Int) (x : Int × Option Nat),
    alpha_beta fuel me opp a c = some x → alpha_beta (fuel + 1) me opp a c = some x := by
  induction fuel with
  | zero => intro me opp a c x h; rw [alpha_beta_zero] at h; exact Option.noConfusion h
  | succ k ih =>
    intro me opp a c x h
    rw [alpha_beta_step] at h ⊢
    by_cases hf : me ||| opp = FULL
    · rw [if_pos hf] at h ⊢; exact h
    · rw [if_neg hf] at h ⊢
      cases hs : scan (fun m o a1 c1 => (alpha_beta k m o a1 c1).map Prod.fst)
          me opp c cells a 0 with
      | none => rw [hs] at h; exact Option.noConfusion h
      | some y =>
        rw [hs] at h
        rw [scan_mono (fun m o a1 c1 => (alpha_beta k m o a1 c1).map Prod.fst)
          (fun m o a1 c1 => (alpha_beta (k + 1) m o a1 c1).map Prod.fst) (by
            intro m o a1 c1 r hr
            beta_reduce at hr ⊢
            cases h1 : alpha_beta k m o a1 c1 with
            | none => rw [h1] at hr; exact Option.noConfusion hr
            | some z => rw [h1] at hr; rw [ih m o a1 c1 z h1]; exact hr)
          me opp c cells a 0 y hs]
        exact h

theorem alpha_beta_mono (n fuel : Nat) (hle : n ≤ fuel) (me opp : Nat) (a c : Int)
    (x : Int × Option Nat) (h : alpha_beta n me opp a c = some x) :
    alpha_beta fuel me opp a c = some x := by
  induction fuel with
  | zero =>
    have : n = 0 := Nat.le_zero.mp hle
    subst this; exact h
  | succ k ih =>
    by_cases hk : n ≤ k
    · exact alpha_beta_succ k me opp a c x (ih hk)
    · have : n = k + 1 := by omega
      subst this; exact h

/-- Soundness of the pruning, for every window `a < c`. -/
theorem alpha_beta_sound (fuel : Nat) : ∀ (me opp : Nat), me < 512 → opp < 512 →
    (emptyCells (me ||| opp)).length < fuel → ∀ a c : Int, a < c →
    ∃ r m, alpha_beta fuel me opp a c = some (r, m) ∧ Sound a c (gameValue me opp) r ∧
      (me ||| opp ≠ FULL → ∃ b, m = some b ∧
        (((bestOf me opp cells a 0).1 < c ∧ (r, b) = bestOf me opp cells a 0) ∨
         (c ≤ (bestOf me opp cells a 0).1 ∧ c ≤ r))) := by
  induction fuel with
  | zero => intro me opp _ _ h; exact absurd h (Nat.not_lt_zero _)
  | succ k ih =>
    intro me opp hme hopp hlen a c hac
    rw [alpha_beta_step]
    by_cases hf : me ||| opp = FULL
    · rw [if_pos hf]
      refine ⟨DRAW, none, rfl, ?_, fun h => absurd hf h⟩
      rw [gameValue_eq, if_pos hf]
      unfold Sound DRAW
      exact ⟨fun _ _ => rfl, fun h => h, fun h => h⟩
    · rw [if_neg hf]
      obtain ⟨r, b, hs, hb⟩ := scan_sound
        (fun m o a1 c1 => (alpha_beta k m o a1 c1).map Prod.fst) me opp c cells (by
          intro i hi he _ a1 c1 hac1
          have hi9 := (mem_cells i).mp hi
          have hlt := child_emptyCells_lt me opp i hi9 he
          obtain ⟨r, m, hr, hsound, _⟩ := ih opp (me ||| 1 <<< i) hopp (set_lt me i hme hi9)
            (by omega) a1 c1 hac1
          exact ⟨r, by simp only [hr, Option.map_some'], hsound⟩) a 0 hac
      rw [hs]
      refine ⟨r, some b, rfl, ?_, fun _ => ⟨b, rfl, hb⟩⟩
      have hE := bestOf_cells_fst me opp hme hopp hf a 0
      rw [hE] at hb
      unfold Sound
      rcases hb with ⟨h1, h2⟩ | ⟨h1, h2⟩
      · have hr : r = max a (gameValue me opp) := by
          have := congrArg Prod.fst h2
          rw [hE] at this
          exact this
        refine ⟨?_, ?_, ?_⟩
        · intro p _; rw [hr, max_eq_right (le_of_lt p)]
        · intro p; rw [hr, max_eq_left p]
        · intro p; exact absurd (lt_of_le_of_lt (le_trans p (le_max_right _ _)) h1) (lt_irrefl _)
      · have hv : c ≤ gameValue me opp := by
          rcases le_max_iff.mp h1 with h | h
          · exact absurd (lt_of_lt_of_le hac h) (lt_irrefl _)
          · exact h
        refine ⟨?_, ?_, ?_⟩
        · intro _ q; exact absurd (lt_of_le_of_lt hv q) (lt_irrefl _)
        · intro p; exact absurd (lt_of_lt_of_le (lt_of_lt_of_le hac hv) p) (lt_irrefl _)
        · intro _; exact h2


/-! ## The root call of `main` -/

theorem INT_MAX_bounds : -INT_MAX < -1 ∧ 1 < INT_MAX := by
  unfold INT_MAX; exact ⟨by decide, by decide⟩

/-- With the window `(-INT_MAX, INT_MAX)` the search returns the exact value and the
first empty cell that achieves it. -/
theorem alpha_beta_root (fuel me opp : Nat) (hme : me < 512) (hopp : opp < 512)
    (hfuel : 10 ≤ fuel) (hfull : me ||| opp ≠ FULL) :
    ∃ m, alpha_beta fuel me opp (-INT_MAX) INT_MAX = some (gameValue me opp, some m) ∧
      m < 9 ∧ emptyAt (me ||| opp) m = true ∧
      moveValue gameValue me opp m = gameValue me opp ∧
      (∀ i, i < 9 → emptyAt (me ||| opp) i = true →
        moveValue gameValue me opp i ≤ gameValue me opp) ∧
      (∀ i, i < m → emptyAt (me ||| opp) i = true →
        moveValue gameValue me opp i < gameValue me opp) := by
  have hv := gameValue_bounds me opp
  have hI := INT_MAX_bounds
  have hlen := emptyCells_length_le (me ||| opp)
  obtain ⟨r, m, hr, _, hd⟩ := alpha_beta_sound fuel me opp hme hopp (by omega)
    (-INT_MAX) INT_MAX (by omega)
  obtain ⟨b, rfl, hb⟩ := hd hfull
  have hE := bestOf_cells_fst me opp hme hopp hfull (-INT_MAX) 0
  have hmax : max (-INT_MAX) (gameValue me opp) = gameValue me opp :=
    max_eq_right (by omega)
  rw [hmax] at hE
  rcases hb with ⟨_, h2⟩ | ⟨h1, _⟩
  · have hr1 : r = gameValue me opp := by rw [← hE]; exact congrArg Prod.fst h2
    have hb1 : b = (bestOf me opp cells (-INT_MAX) 0).2 := congrArg Prod.snd h2
    rcases bestOf_spec me opp cells cells_pairwise (-INT_MAX) 0 with ⟨h3, _⟩ | h3
    · have := congrArg Prod.fst h3
      rw [hE] at this
      simp only at this
      omega
    · rw [hE, ← hb1] at h3
      obtain ⟨_, h4, h5, h6, h7, h8⟩ := h3
      refine ⟨b, ?_, (mem_cells b).mp h4, h5, h6, ?_, ?_⟩
      · rw [hr, hr1]
      · intro i hi he; exact h7 i ((mem_cells i).mpr hi) he
      · intro i hi he
        exact h8 i ((mem_cells i).mpr (lt_trans hi ((mem_cells b).mp h4))) he hi
  · rw [hE] at h1
    omega

theorem mem_le_foldl_max (xs : List Int) : ∀ (a x : Int), x ∈ xs → x ≤ xs.foldl max a := by
  induction xs with
  | nil => intro a x hx; exact absurd hx (List.not_mem_nil x)
  | cons y ys ih =>
    intro a x hx
    rw [List.foldl_cons]
    rcases List.mem_cons.mp hx with rfl | hx
    · exact le_trans (le_max_right a x) (foldl_max_ge ys _)
    · exact ih _ x hx

theorem le_maxList (xs : List Int) (x : Int) (hx : x ∈ xs) : x ≤ maxList xs := by
  cases xs with
  | nil => exact absurd hx (List.not_mem_nil x)
  | cons y ys =>
    rw [maxList_cons]
    rcases List.mem_cons.mp hx with rfl | hx
    · exact foldl_max_ge ys x
    · exact mem_le_foldl_max ys y x hx

theorem moveValue_le_gameValue (me opp i : Nat) (hi : i < 9)
    (he : emptyAt (me ||| opp) i = true) (hfull : me ||| opp ≠ FULL) :
    moveValue gameValue me opp i ≤ gameValue me opp := by
  rw [gameValue_eq me opp, if_neg hfull]
  apply le_maxList
  exact List.mem_map.mpr ⟨i, (mem_emptyCells _ _).mpr ⟨hi, he⟩, rfl⟩

/-! ### The empty board

The value of the empty board is obtained from searches with windows of width one on
positions after the first two or three moves, which the soundness of the pruning
turns into bounds on their values. -/

theorem full_not_empty : ∀ i, i < 9 → FULL &&& (1 <<< i) ≠ 0 := by
  decide

/-- A score of at least 0 returned for the window `(-1, 0)` bounds the value below. -/
theorem value_nonneg_of_search (me opp : Nat) (hme : me < 512) (hopp : opp < 512)
    (r : Int) (m : Option Nat) (h : alpha_beta 10 me opp (-1) 0 = some (r, m))
    (hr : 0 ≤ r) : 0 ≤ gameValue me opp := by
  have hlen := emptyCells_length_le (me ||| opp)
  obtain ⟨r1, m1, h1, hs, _⟩ := alpha_beta_sound 10 me opp hme hopp (by omega) (-1) 0
    (by decide)
  rw [h] at h1
  have hr1 : r = r1 := (Prod.mk.inj (Option.some.inj h1)).1
  subst hr1
  by_contra hneg
  have := hs.2.1 (by omega)
  omega

/-- A score of at most 0 returned for the window `(0, 1)` bounds the value above. -/
theorem value_nonpos_of_search (me opp : Nat) (hme : me < 512) (hopp : opp < 512)
    (r : Int) (m : Option Nat) (h : alpha_beta 10 me opp 0 1 = some (r, m))
    (hr : r ≤ 0) : gameValue me opp ≤ 0 := by
  have hlen := emptyCells_length_le (me ||| opp)
  obtain ⟨r1, m1, h1, hs, _⟩ := alpha_beta_sound 10 me opp hme hopp (by omega) 0 1
    (by decide)
  rw [h] at h1
  have hr1 : r = r1 := (Prod.mk.inj (Option.some.inj h1)).1
  subst hr1
  by_contra hpos
  have := hs.2.2 (by omega)
  omega

/-- A move onto the empty cell `j` that leaves the opponent a value of at most 0
secures at least a draw. -/
theorem value_nonneg_of_reply (me opp : Nat) (hme : me < 512) (hopp : opp < 512) (j : Nat)
    (hj : j < 9) (he : emptyAt (me ||| opp) j = true)
    (hw : is_win (me ||| 1 <<< j) = false)
    (hchild : gameValue opp (me ||| 1 <<< j) ≤ 0) : 0 ≤ gameValue me opp := by
  have hfull : me ||| opp ≠ FULL := by
    intro hf
    rw [hf] at he
    exact full_not_empty j hj ((emptyAt_iff _ _).mp he)
  have h := moveValue_le_gameValue me opp j hj he hfull
  unfold moveValue at h
  rw [hw, if_neg (by decide)] at h
  omega

/-- When no move completes a line and every move leaves the opponent a value of at
least 0, the mover cannot force a win. -/
theorem value_nonpos_of_replies (me opp : Nat) (hme : me < 512) (hopp : opp < 512)
    (h : ∀ i, i < 9 → emptyAt (me ||| opp) i = true →
      is_win (me ||| 1 <<< i) = false ∧ 0 ≤ gameValue opp (me ||| 1 <<< i)) :
    gameValue me opp ≤ 0 := by
  by_cases hfull : me ||| opp = FULL
  · rw [gameValue_eq, if_pos hfull]
  · obtain ⟨m, _, hm, hem, hmv, _, _⟩ :=
      alpha_beta_root 10 me opp hme hopp (le_refl 10) hfull
    obtain ⟨h1, h2⟩ := h m hm hem
    rw [← hmv]
    unfold moveValue
    rw [h1, if_neg (by decide)]
    omega

/-! ### After the first move on cell 0, no reply of the second player wins -/

set_option maxRecDepth 100000 in
/-- The search with window `(-1, 0)` on `me = {0}`, `opp = {1}`. -/
theorem eval_corner_reply_1 : alpha_beta 10 1 2 (-1) 0 = some (0, some 2) := by
  decide!

set_option maxRecDepth 100000 in
/-- The search with window `(-1, 0)` on `me = {0}`, `opp = {2}`. -/
theorem eval_corner_reply_2 : alpha_beta 10 1 4 (-1) 0 = some (0, some 3) := by
  decide!

set_option maxRecDepth 100000 in
/-- The search with window `(-1, 0)` on `me = {0}`, `opp = {3}`. -/
theorem eval_corner_reply_3 : alpha_beta 10 1 8 (-1) 0 = some (0, some 1) := by
  decide!

set_option maxRecDepth 100000 in
/-- The search with window `(-1, 0)` on `me = {0}`, `opp = {4}`. -/
theorem eval_corner_reply_4 : alpha_beta 10 1 16 (-1) 0 = some (0, some 1) := by
  decide!

set_option maxRecDepth 100000 in
/-- The search with window `(-1, 0)` on `me = {0}`, `opp = {5}`. -/
theorem eval_corner_reply_5 : alpha_beta 10 1 32 (-1) 0 = some (0, some 2) := by
  decide!

set_option maxRecDepth 100000 in
/-- The search with window `(-1, 0)` on `me = {0}`, `opp = {6}`. -/
theorem eval_corner_reply_6 : alpha_beta 10 1 64 (-1) 0 = some (0, some 1) := by
  decide!

set_option maxRecDepth 100000 in
/-- The search with window `(-1, 0)` on `me = {0}`, `opp = {7}`. -/
theorem eval_corner_reply_7 : alpha_beta 10 1 128 (-1) 0 = some (0, some 1) := by
  decide!

set_option maxRecDepth 100000 in
/-- The search with window `(-1, 0)` on `me = {0}`, `opp = {8}`. -/
theorem eval_corner_reply_8 : alpha_beta 10 1 256 (-1) 0 = some (0, some 2) := by
  decide!

/-- After the first move on cell 0 the side to answer cannot force a win. -/
theorem corner_value_nonpos : gameValue 0 1 ≤ 0 := by
  apply value_nonpos_of_replies 0 1 (by decide) (by decide)
  intro i hi he
  interval_cases i
  · exact absurd he (by decide)
  · exact ⟨by decide, value_nonneg_of_search 1 2 (by decide) (by decide) 0 _ eval_corner_reply_1 (le_refl 0)⟩
  · exact ⟨by decide, value_nonneg_of_search 1 4 (by decide) (by decide) 0 _ eval_corner_reply_2 (le_refl 0)⟩
  · exact ⟨by decide, value_nonneg_of_search 1 8 (by decide) (by decide) 0 _ eval_corner_reply_3 (le_refl 0)⟩
  · exact ⟨by decide, value_nonneg_of_search 1 16 (by decide) (by decide) 0 _ eval_corner_reply_4 (le_refl 0)⟩
  · exact ⟨by decide, value_nonneg_of_search 1 32 (by decide) (by decide) 0 _ eval_corner_reply_5 (le_refl 0)⟩
  · exact ⟨by decide, value_nonneg_of_search 1 64 (by decide) (by decide) 0 _ eval_corner_reply_6 (le_refl 0)⟩
  · exact ⟨by decide, value_nonneg_of_search 1 128 (by decide) (by decide) 0 _ eval_corner_reply_7 (le_refl 0)⟩
  · exact ⟨by decide, value_nonneg_of_search 1 256 (by decide) (by decide) 0 _ eval_corner_reply_8 (le_refl 0)⟩

/-! ### Every first move can be answered without losing -/

set_option maxRecDepth 100000 in
/-- The search with window `(0, 1)` after the first move on cell 0 and the reply on cell 4. -/
theorem eval_first_move_0 : alpha_beta 10 1 16 0 1 = some (0, some 0) := by
  decide!

/-- The first move on cell 0 is answered on cell 4. -/
theorem first_move_0_nonneg : 0 ≤ gameValue 0 1 :=
  value_nonneg_of_reply 0 1 (by decide) (by decide) 4 (by decide) (by decide) (by decide)
    (value_nonpos_of_search 1 16 (by decide) (by decide) 0 _ eval_first_move_0 (le_refl 0))

set_option maxRecDepth 100000 in
/-- The search with window `(0, 1)` after the first move on cell 1 and the reply on cell 4. -/
theorem eval_first_move_1 : alpha_beta 10 2 16 0 1 = some (0, some 0) := by
  decide!

/-- The first move on cell 1 is answered on cell 4. -/
theorem first_move_1_nonneg : 0 ≤ gameValue 0 2 :=
  value_nonneg_of_reply 0 2 (by decide) (by decide) 4 (by decide) (by decide) (by decide)
    (value_nonpos_of_search 2 16 (by decide) (by decide) 0 _ eval_first_move_1 (le_refl 0))

set_option maxRecDepth 100000 in
/-- The search with window `(-1, 0)` after the moves on cells 2, 4 and 0. -/
theorem eval_first_move_2_0 : alpha_beta 10 16 5 (-1) 0 = some (0, some 1) := by
  decide!

set_option maxRecDepth 100000 in
/-- The search with window `(-1, 0)` after the moves on cells 2, 4 and 1. -/
theorem eval_first_move_2_1 : alpha_beta 10 16 6 (-1) 0 = some (0, some 0) := by
  decide!

set_option maxRecDepth 100000 in
/-- The search with window `(-1, 0)` after the moves on cells 2, 4 and 3. -/
theorem eval_first_move_2_3 : alpha_beta 10 16 12 (-1) 0 = some (0, some 0) := by
  decide!

set_option maxRecDepth 100000 in
/-- The search with window `(-1, 0)` after the moves on cells 2, 4 and 5. -/
theorem eval_first_move_2_5 : alpha_beta 10 16 36 (-1) 0 = some (0, some 8) := by
  decide!

set_option maxRecDepth 100000 in
/-- The search with window `(-1, 0)` after the moves on cells 2, 4 and 6. -/
theorem eval_first_move_2_6 : alpha_beta 10 16 68 (-1) 0 = some (0, some 1) := by
  decide!

set_option maxRecDepth 100000 in
/-- The search with window `(-1, 0)` after the moves on cells 2, 4 and 7. -/
theorem eval_first_move_2_7 : alpha_beta 10 16 132 (-1) 0 = some (0, some 3) := by
  decide!

set_option maxRecDepth 100000 in
/-- The search with window `(-1, 0)` after the moves on cells 2, 4 and 8. -/
theorem eval_first_move_2_8 : alpha_beta 10 16 260 (-1) 0 = some (0, some 5) := by
  decide!

/-- After the first move on cell 2 and the reply on cell 4 the first player cannot force a win. -/
theorem first_move_2_reply_nonpos : gameValue 4 16 ≤ 0 := by
  apply value_nonpos_of_replies 4 16 (by decide) (by decide)
  intro k hk he
  interval_cases k
  · exact ⟨by decide, value_nonneg_of_search 16 5 (by decide) (by decide) 0 _ eval_first_move_2_0 (le_refl 0)⟩
  · exact ⟨by decide, value_nonneg_of_search 16 6 (by decide) (by decide) 0 _ eval_first_move_2_1 (le_refl 0)⟩
  · exact absurd he (by decide)
  · exact ⟨by decide, value_nonneg_of_search 16 12 (by decide) (by decide) 0 _ eval_first_move_2_3 (le_refl 0)⟩
  · exact absurd he (by decide)
  · exact ⟨by decide, value_nonneg_of_search 16 36 (by decide) (by decide) 0 _ eval_first_move_2_5 (le_refl 0)⟩
  · exact ⟨by decide, value_nonneg_of_search 16 68 (by decide) (by decide) 0 _ eval_first_move_2_6 (le_refl 0)⟩
  · exact ⟨by decide, value_nonneg_of_search 16 132 (by decide) (by decide) 0 _ eval_first_move_2_7 (le_refl 0)⟩
  · exact ⟨by decide, value_nonneg_of_search 16 260 (by decide) (by decide) 0 _ eval_first_move_2_8 (le_refl 0)⟩

/-- The first move on cell 2 is answered on cell 4. -/
theorem first_move_2_nonneg : 0 ≤ gameValue 0 4 :=
  value_nonneg_of_reply 0 4 (by decide) (by decide) 4 (by decide) (by decide) (by decide)
    first_move_2_reply_nonpos

set_option maxRecDepth 100000 in
/-- The search with window `(0, 1)` after the first move on cell 3 and the reply on cell 0. -/
theorem eval_first_move_3 : alpha_beta 10 8 1 0 1 = some (0, some 0) := by
  decide!

/-- The first move on cell 3 is answered on cell 0. -/
theorem first_move_3_nonneg : 0 ≤ gameValue 0 8 :=
  value_nonneg_of_reply 0 8 (by decide) (by decide) 0 (by decide) (by decide) (by decide)
    (value_nonpos_of_search 8 1 (by decide) (by decide) 0 _ eval_first_move_3 (le_refl 0))

set_option maxRecDepth 100000 in
/-- The search with window `(0, 1)` after the first move on cell 4 and the reply on cell 0. -/
theorem eval_first_move_4 : alpha_beta 10 16 1 0 1 = some (0, some 0) := by
  decide!

/-- The first move on cell 4 is answered on cell 0. -/
theorem first_move_4_nonneg : 0 ≤ gameValue 0 16 :=
  value_nonneg_of_reply 0 16 (by decide) (by decide) 0 (by decide) (by decide) (by decide)
    (value_nonpos_of_search 16 1 (by decide) (by decide) 0 _ eval_first_move_4 (le_refl 0))

set_option maxRecDepth 100000 in
/-- The search with window `(0, 1)` after the first move on cell 5 and the reply on cell 2. -/
theorem eval_first_move_5 : alpha_beta 10 32 4 0 1 = some (0, some 0) := by
  decide!

/-- The first move on cell 5 is answered on cell 2. -/
theorem first_move_5_nonneg : 0 ≤ gameValue 0 32 :=
  value_nonneg_of_reply 0 32 (by decide) (by decide) 2 (by decide) (by decide) (by decide)
    (value_nonpos_of_search 32 4 (by decide) (by decide) 0 _ eval_first_move_5 (le_refl 0))

set_option maxRecDepth 100000 in
/-- The search with window `(-1, 0)` after the moves on cells 6, 4 and 0. -/
theorem eval_first_move_6_0 : alpha_beta 10 16 65 (-1) 0 = some (0, some 3) := by
  decide!

set_option maxRecDepth 100000 in
/-- The search with window `(-1, 0)` after the moves on cells 6, 4 and 1. -/
theorem eval_first_move_6_1 : alpha_beta 10 16 66 (-1) 0 = some (0, some 0) := by
  decide!

set_option maxRecDepth 100000 in
/-- The search with window `(-1, 0)` after the moves on cells 6, 4 and 2. -/
theorem eval_first_move_6_2 : alpha_beta 10 16 68 (-1) 0 = some (0, some 1) := by
  decide!

set_option maxRecDepth 100000 in
/-- The search with window `(-1, 0)` after the moves on cells 6, 4 and 3. -/
theorem eval_first_move_6_3 : alpha_beta 10 16 72 (-1) 0 = some (0, some 0) := by
  decide!

set_option maxRecDepth 100000 in
/-- The search with window `(-1, 0)` after the moves on cells 6, 4 and 5. -/
theorem eval_first_move_6_5 : alpha_beta 10 16 96 (-1) 0 = some (0, some 1) := by
  decide!

set_option maxRecDepth 100000 in
/-- The search with window `(-1, 0)` after the moves on cells 6, 4 and 7. -/
theorem eval_first_move_6_7 : alpha_beta 10 16 192 (-1) 0 = some (0, some 8) := by
  decide!

set_option maxRecDepth 100000 in
/-- The search with window `(-1, 0)` after the moves on cells 6, 4 and 8. -/
theorem eval_first_move_6_8 : alpha_beta 10 16 320 (-1) 0 = some (0, some 7) := by
  decide!

/-- After the first move on cell 6 and the reply on cell 4 the first player cannot force a win. -/
theorem first_move_6_reply_nonpos : gameValue 64 16 ≤ 0 := by
  apply value_nonpos_of_replies 64 16 (by decide) (by decide)
  intro k hk he
  interval_cases k
  · exact ⟨by decide, value_nonneg_of_search 16 65 (by decide) (by decide) 0 _ eval_first_move_6_0 (le_refl 0)⟩
  · exact ⟨by decide, value_nonneg_of_search 16 66 (by decide) (by decide) 0 _ eval_first_move_6_1 (le_refl 0)⟩
  · exact ⟨by decide, value_nonneg_of_search 16 68 (by decide) (by decide) 0 _ eval_first_move_6_2 (le_refl 0)⟩
  · exact ⟨by decide, value_nonneg_of_search 16 72 (by decide) (by decide) 0 _ eval_first_move_6_3 (le_refl 0)⟩
  · exact absurd he (by decide)
  · exact ⟨by decide, value_nonneg_of_search 16 96 (by decide) (by decide) 0 _ eval_first_move_6_5 (le_refl 0)⟩
  · exact absurd he (by decide)
  · exact ⟨by decide, value_nonneg_of_search 16 192 (by decide) (by decide) 0 _ eval_first_move_6_7 (le_refl 0)⟩
  · exact ⟨by decide, value_nonneg_of_search 16 320 (by decide) (by decide) 0 _ eval_first_move_6_8 (le_refl 0)⟩

/-- The first move on cell 6 is answered on cell 4. -/
theorem first_move_6_nonneg : 0 ≤ gameValue 0 64 :=
  value_nonneg_of_reply 0 64 (by decide) (by decide) 4 (by decide) (by decide) (by decide)
    first_move_6_reply_nonpos

set_option maxRecDepth 100000 in
/-- The search with window `(0, 1)` after the first move on cell 7 and the reply on cell 6. -/
theorem eval_first_move_7 : alpha_beta 10 128 64 0 1 = some (0, some 0) := by
  decide!

/-- The first move on cell 7 is answered on cell 6. -/
theorem first_move_7_nonneg : 0 ≤ gameValue 0 128 :=
  value_nonneg_of_reply 0 128 (by decide) (by decide) 6 (by decide) (by decide) (by decide)
    (value_nonpos_of_search 128 64 (by decide) (by decide) 0 _ eval_first_move_7 (le_refl 0))

set_option maxRecDepth 100000 in
/-- The search with window `(-1, 0)` after the moves on cells 8, 4 and 0. -/
theorem eval_first_move_8_0 : alpha_beta 10 16 257 (-1) 0 = some (0, some 1) := by
  decide!

set_option maxRecDepth 100000 in
/-- The search with window `(-1, 0)` after the moves on cells 8, 4 and 1. -/
theorem eval_first_move_8_1 : alpha_beta 10 16 258 (-1) 0 = some (0, some 0) := by
  decide!

set_option maxRecDepth 100000 in
/-- The search with window `(-1, 0)` after the moves on cells 8, 4 and 2. -/
theorem eval_first_move_8_2 : alpha_beta 10 16 260 (-1) 0 = some (0, some 5) := by
  decide!

set_option maxRecDepth 100000 in
/-- The search with window `(-1, 0)` after the moves on cells 8, 4 and 3. -/
theorem eval_first_move_8_3 : alpha_beta 10 16 264 (-1) 0 = some (0, some 0) := by
  decide!

set_option maxRecDepth 100000 in
/-- The search with window `(-1, 0)` after the moves on cells 8, 4 and 5. -/
theorem eval_first_move_8_5 : alpha_beta 10 16 288 (-1) 0 = some (0, some 2) := by
  decide!

set_option maxRecDepth 100000 in
/-- The search with window `(-1, 0)` after the moves on cells 8, 4 and 6. -/
theorem eval_first_move_8_6 : alpha_beta 10 16 320 (-1) 0 = some (0, some 7) := by
  decide!

set_option maxRecDepth 100000 in
/-- The search with window `(-1, 0)` after the moves on cells 8, 4 and 7. -/
theorem eval_first_move_8_7 : alpha_beta 10 16 384 (-1) 0 = some (0, some 6) := by
  decide!

/-- After the first move on cell 8 and the reply on cell 4 the first player cannot force a win. -/
theorem first_move_8_reply_nonpos : gameValue 256 16 ≤ 0 := by
  apply value_nonpos_of_replies 256 16 (by decide) (by decide)
  intro k hk he
  interval_cases k
  · exact ⟨by decide, value_nonneg_of_search 16 257 (by decide) (by decide) 0 _ eval_first_move_8_0 (le_refl 0)⟩
  · exact ⟨by decide, value_nonneg_of_search 16 258 (by decide) (by decide) 0 _ eval_first_move_8_1 (le_refl 0)⟩
  · exact ⟨by decide, value_nonneg_of_search 16 260 (by decide) (by decide) 0 _ eval_first_move_8_2 (le_refl 0)⟩
  · exact ⟨by decide, value_nonneg_of_search 16 264 (by decide) (by decide) 0 _ eval_first_move_8_3 (le_refl 0)⟩
  · exact absurd he (by decide)
  · exact ⟨by decide, value_nonneg_of_search 16 288 (by decide) (by decide) 0 _ eval_first_move_8_5 (le_refl 0)⟩
  · exact ⟨by decide, value_nonneg_of_search 16 320 (by decide) (by decide) 0 _ eval_first_move_8_6 (le_refl 0)⟩
  · exact ⟨by decide, value_nonneg_of_search 16 384 (by decide) (by decide) 0 _ eval_first_move_8_7 (le_refl 0)⟩
  · exact absurd he (by decide)

/-- The first move on cell 8 is answered on cell 4. -/
theorem first_move_8_nonneg : 0 ≤ gameValue 0 256 :=
  value_nonneg_of_reply 0 256 (by decide) (by decide) 4 (by decide) (by decide) (by decide)
    first_move_8_reply_nonpos

/-- No first move loses: each position after it has value at least 0 for the side
that answers. -/
theorem first_move_value_nonneg (i : Nat) (hi : i < 9) : 0 ≤ gameValue 0 (0 ||| 1 <<< i) := by
  interval_cases i
  · exact first_move_0_nonneg
  · exact first_move_1_nonneg
  · exact first_move_2_nonneg
  · exact first_move_3_nonneg
  · exact first_move_4_nonneg
  · exact first_move_5_nonneg
  · exact first_move_6_nonneg
  · exact first_move_7_nonneg
  · exact first_move_8_nonneg

theorem first_move_not_win (i : Nat) (hi : i < 9) : is_win (0 ||| 1 <<< i) = false := by
  interval_cases i <;> decide

theorem gameValue_empty_board : gameValue 0 0 = 0 := by
  obtain ⟨m, _, hm, _, hmv, hle, _⟩ :=
    alpha_beta_root 10 0 0 (by decide) (by decide) (le_refl 10) (by decide)
  apply le_antisymm
  · rw [← hmv]
    unfold moveValue
    rw [first_move_not_win m hm, if_neg (by decide)]
    have := first_move_value_nonneg m hm
    omega
  · have h0 := hle 0 (by decide) (by decide)
    unfold moveValue at h0
    rw [first_move_not_win 0 (by decide), if_neg (by decide)] at h0
    have h1 : gameValue 0 (0 ||| 1 <<< 0) ≤ 0 := corner_value_nonpos
    omega

/-- The search on the empty board returns score 0 and stores cell 0. -/
theorem search_empty_board (fuel : Nat) (hfuel : 10 ≤ fuel) :
    alpha_beta fuel 0 0 (-INT_MAX) INT_MAX = some (0, some 0) := by
  obtain ⟨m, hab, _, _, _, _, hlt⟩ :=
    alpha_beta_root fuel 0 0 (by decide) (by decide) hfuel (by decide)
  rw [gameValue_empty_board] at hab hlt
  have hm : m = 0 := by
    by_contra hne
    have h0 := hlt 0 (Nat.pos_of_ne_zero hne) (by decide)
    unfold moveValue at h0
    rw [first_move_not_win 0 (by decide), if_neg (by decide)] at h0
    have h1 : gameValue 0 (0 ||| 1 <<< 0) ≤ 0 := corner_value_nonpos
    omega
  rw [hab, hm]


/-! ## The game loop -/

theorem next_player_twice (p : side) (hp : p = side.X ∨ p = side.O) :
    next_player (next_player p) = p := by
  rcases hp with rfl | rfl <;> rfl

theorem next_player_ne (p : side) (hp : p = side.X ∨ p = side.O) : next_player p ≠ p := by
  rcases hp with rfl | rfl <;> decide

theorem union_empty_left (x y i : Nat) (h : (x ||| y) &&& (1 <<< i) = 0) :
    x &&& (1 <<< i) = 0 := by
  rw [and_bit_eq_zero_iff] at h ⊢
  rw [Nat.testBit_or, Bool.or_eq_false_iff] at h
  exact h.1

/-- The effect of the shared move statements on the occupancy `b` of the mover `p`
and the occupancy `o` of the other side. -/
theorem apply_move_spec (s : Game) (p : side) (hp : p = side.X ∨ p = side.O) (b o : Nat)
    (hb : get_player s p = some b) (ho : get_player s (next_player p) = some o)
    (move : Nat) :
    ∃ s1, apply_move s p move = some s1 ∧ get_player s1 p = some (b ||| 1 <<< move) ∧
      get_player s1 (next_player p) = some o ∧
      s1.cur_player = next_player s.cur_player ∧
      s1.over = (if is_win (b ||| 1 <<< move) = true then true
        else if (b ||| 1 <<< move) ||| o = FULL then true else s.over) := by
  rcases hp with rfl | rfl
  · have h1 : s.players_X = b := Option.some.inj hb
    have h2 : s.players_O = o := Option.some.inj ho
    subst h1; subst h2
    exact ⟨_, rfl, rfl, rfl, rfl, rfl⟩
  · have h1 : s.players_O = b := Option.some.inj hb
    have h2 : s.players_X = o := Option.some.inj ho
    subst h1; subst h2
    refine ⟨_, rfl, rfl, rfl, rfl, ?_⟩
    show (if is_win (s.players_O ||| 1 <<< move) = true then true
        else if s.players_X ||| (s.players_O ||| 1 <<< move) = FULL then true else s.over) = _
    rw [Nat.lor_comm s.players_X]

theorem over_eq_false (w f : Prop) [Decidable w] [Decidable f] (o : Bool)
    (h : (if w then true else if f then true else o) = false) : ¬ w ∧ ¬ f ∧ o = false := by
  by_cases hw : w
  · rw [if_pos hw] at h; exact Bool.noConfusion h
  · rw [if_neg hw] at h
    by_cases hf : f
    · rw [if_pos hf] at h; exact Bool.noConfusion h
    · rw [if_neg hf] at h; exact ⟨hw, hf, h⟩

theorem Inv_start (ai : side) (hai : ai = side.X ∨ ai = side.O) : Inv ai start := by
  have hv := gameValue_empty_board
  rcases hai with rfl | rfl
  · refine ⟨0, 0, rfl, rfl, by decide, by decide, by decide, Or.inl rfl, ?_⟩
    intro _
    exact ⟨by decide, fun _ => le_of_eq hv.symm, fun _ => le_of_eq hv⟩
  · refine ⟨0, 0, rfl, rfl, by decide, by decide, by decide, Or.inr rfl, ?_⟩
    intro _
    exact ⟨by decide, fun _ => le_of_eq hv.symm, fun _ => le_of_eq hv⟩

/-- A click of the human on an empty cell keeps the invariant. -/
theorem Inv_click (ai : side) (hai : ai = side.X ∨ ai = side.O) (s s1 : Game) (move : Nat)
    (hinv : Inv ai s) (hm : move < 9)
    (hempty : (s.players_X ||| s.players_O) &&& (1 <<< move) = 0)
    (hstep : human_click ai s move = some s1) : Inv ai s1 := by
  unfold human_click at hstep
  by_cases hg : s.over = false ∧ s.cur_player ≠ ai
  · rw [if_pos hg, if_pos ⟨hm, union_empty_left _ _ _ hempty⟩] at hstep
    obtain ⟨me, opp, hme, hopp, hme9, hopp9, hwin, hcur, hrun⟩ := hinv
    have hcur1 : s.cur_player = next_player ai := by
      rcases hcur with h | h
      · exact absurd h hg.2
      · exact h
    have hn : next_player ai = side.X ∨ next_player ai = side.O := by
      rcases hai with rfl | rfl
      · exact Or.inr rfl
      · exact Or.inl rfl
    rw [hcur1] at hstep
    obtain ⟨s2, h1, h2, h3, h4, h5⟩ := apply_move_spec s (next_player ai) hn opp me hopp
      (by rw [next_player_twice ai hai]; exact hme) move
    rw [h1] at hstep
    have hs := Option.some.inj hstep
    subst hs
    rw [next_player_twice ai hai] at h3
    rw [hcur1, next_player_twice ai hai] at h4
    obtain ⟨hfull, _, hval⟩ := hrun hg.1
    have hunion : (opp ||| me) &&& (1 <<< move) = 0 := by
      rcases hai with rfl | rfl
      · have e1 : s.players_X = me := Option.some.inj hme
        have e2 : s.players_O = opp := Option.some.inj hopp
        rw [← e1, ← e2, Nat.lor_comm]; exact hempty
      · have e1 : s.players_O = me := Option.some.inj hme
        have e2 : s.players_X = opp := Option.some.inj hopp
        rw [← e1, ← e2]; exact hempty
    have hfull1 : opp ||| me ≠ FULL := by rw [Nat.lor_comm]; exact hfull
    have hmv := moveValue_le_gameValue opp me move hm ((emptyAt_iff _ _).mpr hunion) hfull1
    have hv := hval hcur1
    have hnw : ¬ is_win (opp ||| 1 <<< move) = true := by
      intro hw
      unfold moveValue at hmv
      rw [if_pos hw] at hmv
      omega
    have hge : 0 ≤ gameValue me (opp ||| 1 <<< move) := by
      unfold moveValue at hmv
      rw [if_neg hnw] at hmv
      omega
    refine ⟨me, opp ||| 1 <<< move, h3, h2, hme9, set_lt opp move hopp9 hm,
      by simpa using hnw, Or.inl h4, ?_⟩
    intro hov
    rw [h5] at hov
    obtain ⟨_, hf, _⟩ := over_eq_false _ _ _ hov
    refine ⟨?_, fun _ => hge, ?_⟩
    · rw [Nat.lor_comm]; exact hf
    · intro hc
      rw [h4] at hc
      exact absurd hc.symm (next_player_ne ai hai)
  · rw [if_neg hg] at hstep
    have hs := Option.some.inj hstep
    subst hs
    exact hinv

/-- The AI block returns a state and keeps the invariant. -/
theorem Inv_reply (ai : side) (hai : ai = side.X ∨ ai = side.O) (s : Game) (fuel : Nat)
    (hinv : Inv ai s) (hfuel : 10 ≤ fuel) :
    ∃ s1, ai_turn fuel ai s = some s1 ∧ Inv ai s1 := by
  unfold ai_turn
  by_cases hg : s.over = false ∧ s.cur_player = ai
  · rw [if_pos hg]
    obtain ⟨me, opp, hme, hopp, hme9, hopp9, hwin, hcur, hrun⟩ := hinv
    obtain ⟨hfull, hval, _⟩ := hrun hg.1
    obtain ⟨m, hab, hm9, _, hmv, _, _⟩ := alpha_beta_root fuel me opp hme9 hopp9 hfuel hfull
    rw [hme, hopp]
    simp only [hab]
    obtain ⟨s2, h1, h2, h3, h4, h5⟩ := apply_move_spec s ai hai me opp hme hopp m
    refine ⟨s2, h1, me ||| 1 <<< m, opp, h2, h3, set_lt me m hme9 hm9, hopp9, hwin, ?_, ?_⟩
    · rw [h4, hg.2]; exact Or.inr rfl
    · intro hov
      rw [h5] at hov
      obtain ⟨hnw, hf, _⟩ := over_eq_false _ _ _ hov
      refine ⟨hf, ?_, ?_⟩
      · intro hc
        rw [h4, hg.2] at hc
        exact absurd hc (next_player_ne ai hai)
      · intro _
        have hv := hval hg.2
        unfold moveValue at hmv
        rw [if_neg hnw] at hmv
        omega
  · rw [if_neg hg]
    exact ⟨s, rfl, hinv⟩

/-- A quit event keeps the invariant: it only ends the game. -/
theorem Inv_quit (ai : side) (s : Game) (hinv : Inv ai s) :
    Inv ai { s with over := true } := by
  obtain ⟨me, opp, hme, hopp, hme9, hopp9, hwin, hcur, _⟩ := hinv
  refine ⟨me, opp, ?_, ?_, hme9, hopp9, hwin, hcur, fun h => Bool.noConfusion h⟩
  · rw [← hme]; cases ai <;> rfl
  · rw [← hopp]; cases ai <;> rfl

theorem Inv_reach (ai : side) (hai : ai = side.X ∨ ai = side.O) (s : Game)
    (h : Reach ai s) : Inv ai s := by
  induction h with
  | init => exact Inv_start ai hai
  | quit s s1 _ hstep ih =>
    have hs : { s with over := true } = s1 := Option.some.inj hstep
    rw [← hs]
    exact Inv_quit ai s ih
  | click s s1 move _ hm hempty hstep ih => exact Inv_click ai hai s s1 move ih hm hempty hstep
  | reply s s1 fuel _ hfuel hstep ih =>
    obtain ⟨s2, h1, h2⟩ := Inv_reply ai hai s fuel ih hfuel
    rw [h1] at hstep
    have hs := Option.some.inj hstep
    subst hs
    exact h2


/-! ## Evaluated positions -/

set_option maxRecDepth 100000 in
/-- The search on the position with only the centre taken, by the side to move. -/
theorem eval_centre :
    alpha_beta 10 (1 <<< 4) 0 (-INT_MAX) INT_MAX = some (1, some 0) := by
  decide!

set_option maxRecDepth 100000 in
/-- The search on `me = {0,1}`, `opp = {3,4}`. -/
theorem eval_top_row :
    alpha_beta 10 3 24 (-INT_MAX) INT_MAX = some (1, some 2) := by
  decide!

set_option maxRecDepth 100000 in
/-- The search on `me = {6,7}`, `opp = {1,5}`. -/
theorem eval_fork :
    alpha_beta 10 192 34 (-INT_MAX) INT_MAX = some (1, some 0) := by
  decide!

set_option maxRecDepth 100000 in
/-- The search with window `(0, 1)` on `me = {0,2,3,7}`, `opp = {1,4,5,6}`. -/
theorem eval_endgame_narrow :
    alpha_beta 10 141 114 0 1 = some (0, some 0) := by
  decide!

/-! ## The win predicate -/

theorem and_eq_right_iff_testBit (b m : Nat) :
    b &&& m = m ↔ ∀ k, m.testBit k = true → b.testBit k = true := by
  constructor
  · intro h k hk
    have h1 : (b &&& m).testBit k = true := by rw [h]; exact hk
    rw [Nat.testBit_and, Bool.and_eq_true] at h1
    exact h1.1
  · intro h
    apply Nat.eq_of_testBit_eq
    intro k
    rw [Nat.testBit_and]
    cases hm : m.testBit k with
    | false => exact Bool.and_false _
    | true => rw [h k hm]; rfl

theorem testBit_foldl_bits (line : List Nat) (k : Nat) : ∀ acc : Nat,
    (line.foldl (fun acc i => acc ||| (1 <<< i)) acc).testBit k = true ↔
      (acc.testBit k = true ∨ k ∈ line) := by
  induction line with
  | nil => intro acc; simp
  | cons i rest ih =>
    intro acc
    rw [List.foldl_cons, ih, Nat.testBit_or, Nat.one_shiftLeft, Nat.testBit_two_pow,
      Bool.or_eq_true, decide_eq_true_eq, List.mem_cons]
    constructor
    · rintro ((h | h) | h)
      · exact Or.inl h
      · exact Or.inr (Or.inl h.symm)
      · exact Or.inr (Or.inr h)
    · rintro (h | h | h)
      · exact Or.inl (Or.inl h)
      · exact Or.inl (Or.inr h.symm)
      · exact Or.inr h

theorem testBit_lineMask (line : List Nat) (k : Nat) :
    (lineMask line).testBit k = true ↔ k ∈ line := by
  unfold lineMask
  rw [testBit_foldl_bits]
  simp

/-- A pattern test of `is_win` succeeds exactly when all cells of the line are set. -/
theorem pattern_test_eq (b : Nat) (line : List Nat) :
    (b &&& lineMask line == lineMask line) = line.all (fun i => b.testBit i) := by
  rw [Bool.eq_iff_iff, beq_iff_eq, and_eq_right_iff_testBit, List.all_eq_true]
  constructor
  · intro h i hi
    exact h i ((testBit_lineMask line i).mpr hi)
  · intro h k hk
    exact h k ((testBit_lineMask line k).mp hk)

theorem wins_eq_lines : wins = boardLines.map lineMask := by
  decide

theorem any_pattern_eq (b : Nat) : ∀ ls : List (List Nat),
    (ls.map lineMask).any (fun w => b &&& w == w) =
      ls.any (fun line => line.all (fun i => b.testBit i)) := by
  intro ls
  induction ls with
  | nil => rfl
  | cons line rest ih => rw [List.map_cons, List.any_cons, List.any_cons, ih, pattern_test_eq]

theorem is_win_eq_hasLine (b : Nat) : is_win b = hasLine b := by
  unfold is_win hasLine
  rw [wins_eq_lines]
  exact any_pattern_eq b boardLines

set_option maxRecDepth 100000 in
theorem is_win_wins : ∀ p ∈ wins, is_win p = true ∧ ∀ j, j < 9 → is_win (p ||| 1 <<< j) = true := by
  decide!

/-! ## The claims -/

/-- C1: on disjoint 9-bit occupancy sets, `alpha_beta` called with the window
`(-INT_MAX, INT_MAX)` returns the game-theoretic value of the position for the side to
move, where that value is `0` on a full board and otherwise the maximum over the empty
cells `i` of `+1` if `is_win (me | 1<<i)` and minus the value of `(opp, me | 1<<i)`
otherwise; the value is one of `-1`, `0`, `+1`. -/
theorem alpha_beta_returns_game_value (me opp fuel : Nat) (hme : me < 512) (hopp : opp < 512)
    (hdisj : me &&& opp = 0) (hfuel : 10 ≤ fuel) :
    (alpha_beta fuel me opp (-INT_MAX) INT_MAX).map Prod.fst = some (gameValue me opp) ∧
    gameValue me opp =
      (if me ||| opp = FULL then 0
       else maxList ((emptyCells (me ||| opp)).map (moveValue gameValue me opp))) ∧
    (gameValue me opp = -1 ∨ gameValue me opp = 0 ∨ gameValue me opp = 1) := by
  have hv := gameValue_bounds me opp
  have hI := INT_MAX_bounds
  have hlen := emptyCells_length_le (me ||| opp)
  obtain ⟨r, m, hr, hs, _⟩ := alpha_beta_sound fuel me opp hme hopp (by omega)
    (-INT_MAX) INT_MAX (by omega)
  refine ⟨?_, gameValue_eq me opp, by omega⟩
  rw [hr, Option.map_some', hs.1 (by omega) (by omega)]

/-- C1, at `me = {0,1}`, `opp = {3,4}`. -/
theorem alpha_beta_returns_game_value_witness :
    (alpha_beta 10 3 24 (-INT_MAX) INT_MAX).map Prod.fst = some (gameValue 3 24) :=
  (alpha_beta_returns_game_value 3 24 10 (by decide) (by decide) (by decide) (by decide)).1

/-- C2: against either AI side, in every game from the empty board in which the human
claims empty cells and the AI claims the cell `alpha_beta` stores, no reachable state
has a line of the human; in every such state the AI block returns. -/
theorem ai_never_loses (ai : side) (hai : ai = side.X ∨ ai = side.O) (s : Game)
    (h : Reach ai s) :
    (∃ opp, get_player s (next_player ai) = some opp ∧ is_win opp = false) ∧
    (∀ fuel, 10 ≤ fuel → ∃ s1, ai_turn fuel ai s = some s1) := by
  have hinv := Inv_reach ai hai s h
  constructor
  · obtain ⟨me, opp, _, hopp, _, _, hwin, _⟩ := hinv
    exact ⟨opp, hopp, hwin⟩
  · intro fuel hfuel
    obtain ⟨s1, h1, _⟩ := Inv_reply ai hai s fuel hinv hfuel
    exact ⟨s1, h1⟩

/-- C2, for the AI playing `O` after the human has claimed cell 4. -/
theorem ai_never_loses_witness :
    (∃ opp, get_player ⟨16, 0, side.O, false⟩ (next_player side.O) = some opp ∧
      is_win opp = false) ∧
    (∀ fuel, 10 ≤ fuel → ∃ s1, ai_turn fuel side.O ⟨16, 0, side.O, false⟩ = some s1) :=
  ai_never_loses side.O (Or.inr rfl) ⟨16, 0, side.O, false⟩
    (Reach.click start ⟨16, 0, side.O, false⟩ 4 Reach.init (by decide) (by decide) (by decide))

/-- C3: for every 9-bit occupancy `b`, `is_win b` holds exactly when `b` contains all
three cells of a row, a column or a diagonal; the table `wins` holds the eight lines,
and each of them wins, also with one more bit set. -/
theorem is_win_iff_line (b : Nat) (hb : b < 512) :
    (is_win b = true ↔ hasLine b = true) ∧
    wins = boardLines.map lineMask ∧
    (∀ p ∈ wins, is_win p = true ∧ ∀ j, j < 9 → is_win (p ||| 1 <<< j) = true) := by
  refine ⟨?_, wins_eq_lines, is_win_wins⟩
  rw [is_win_eq_hasLine b]

/-- C3, at the top row with the centre added, `b = {0,1,2,4}`. -/
theorem is_win_iff_line_witness :
    (is_win 23 = true ↔ hasLine 23 = true) ∧
    wins = boardLines.map lineMask ∧
    (∀ p ∈ wins, is_win p = true ∧ ∀ j, j < 9 → is_win (p ||| 1 <<< j) = true) :=
  is_win_iff_line 23 (by decide)

/-- C4, as stated, fails: on `me = {6,7}`, `opp = {1,5}` cell 8 completes the bottom
row, yet the search stores cell 0, which completes no line. -/
theorem immediate_win_move_counterexample :
    192 < 512 ∧ 34 < 512 ∧ 192 &&& 34 = 0 ∧
    ((192 ||| 34) &&& (1 <<< 8) = 0 ∧ is_win (192 ||| 1 <<< 8) = true) ∧
    alpha_beta 10 192 34 (-INT_MAX) INT_MAX = some (1, some 0) ∧
    is_win (192 ||| 1 <<< 0) = false :=
  ⟨by decide, by decide, by decide, ⟨by decide, by decide⟩, eval_fork, by decide⟩

/-- C4, amended: when some empty cell completes a line of the mover, the search with
the window `(-INT_MAX, INT_MAX)` returns score 1 and stores an empty cell `m` of value
`+1`: either `m` completes a line, or the position handed to the opponent has value
`-1`. -/
theorem alpha_beta_immediate_win (me opp fuel : Nat) (hme : me < 512) (hopp : opp < 512)
    (hdisj : me &&& opp = 0)
    (hwin : ∃ i, i < 9 ∧ (me ||| opp) &&& (1 <<< i) = 0 ∧ is_win (me ||| 1 <<< i) = true)
    (hfuel : 10 ≤ fuel) :
    ∃ m, alpha_beta fuel me opp (-INT_MAX) INT_MAX = some (1, some m) ∧ m < 9 ∧
      (me ||| opp) &&& (1 <<< m) = 0 ∧
      (is_win (me ||| 1 <<< m) = true ∨ gameValue opp (me ||| 1 <<< m) = -1) := by
  obtain ⟨i, hi, he, hw⟩ := hwin
  have hfull : me ||| opp ≠ FULL := by
    intro hf
    rw [hf] at he
    exact full_not_empty i hi he
  obtain ⟨m, hab, hm, hem, hmv, hle, _⟩ := alpha_beta_root fuel me opp hme hopp hfuel hfull
  have hv := gameValue_bounds me opp
  have h1 : gameValue me opp = 1 := by
    have := hle i hi ((emptyAt_iff _ _).mpr he)
    unfold moveValue at this
    rw [if_pos hw] at this
    omega
  rw [h1] at hab hmv
  refine ⟨m, hab, hm, (emptyAt_iff _ _).mp hem, ?_⟩
  unfold moveValue at hmv
  by_cases hwm : is_win (me ||| 1 <<< m) = true
  · exact Or.inl hwm
  · rw [if_neg hwm] at hmv
    right
    omega

/-- C4 amended, at `me = {0,1}`, `opp = {3,4}`, where cell 2 completes the top row. -/
theorem alpha_beta_immediate_win_witness :
    ∃ m, alpha_beta 10 3 24 (-INT_MAX) INT_MAX = some (1, some m) ∧ m < 9 ∧
      (3 ||| 24) &&& (1 <<< m) = 0 ∧
      (is_win (3 ||| 1 <<< m) = true ∨ gameValue 24 (3 ||| 1 <<< m) = -1) :=
  alpha_beta_immediate_win 3 24 10 (by decide) (by decide) (by decide)
    ⟨2, by decide, by decide, by decide⟩ (by decide)

/-- C5: on a non-full position the cell stored by the search with the window
`(-INT_MAX, INT_MAX)` is an empty cell in `0..8` whose move value is the returned score
(the game value), and no lower empty cell has that value; on `me = {0,1}`,
`opp = {3,4}` the result is score 1 and cell 2. -/
theorem alpha_beta_best_move (me opp fuel : Nat) (hme : me < 512) (hopp : opp < 512)
    (hdisj : me &&& opp = 0) (hfull : me ||| opp ≠ FULL) (hfuel : 10 ≤ fuel) :
    (∃ r m, alpha_beta fuel me opp (-INT_MAX) INT_MAX = some (r, some m) ∧
      r = gameValue me opp ∧ m < 9 ∧ (me ||| opp) &&& (1 <<< m) = 0 ∧
      moveValue gameValue me opp m = r ∧
      ∀ i, i < m → (me ||| opp) &&& (1 <<< i) = 0 → moveValue gameValue me opp i ≠ r) ∧
    alpha_beta fuel 3 24 (-INT_MAX) INT_MAX = some (1, some 2) := by
  obtain ⟨m, hab, hm, hem, hmv, _, hlt⟩ := alpha_beta_root fuel me opp hme hopp hfuel hfull
  refine ⟨⟨gameValue me opp, m, hab, rfl, hm, (emptyAt_iff _ _).mp hem, hmv, ?_⟩,
    alpha_beta_mono 10 fuel hfuel 3 24 _ _ _ eval_top_row⟩
  intro i hi he
  exact ne_of_lt (hlt i hi ((emptyAt_iff _ _).mpr he))

/-- C5, at `me = {6,7}`, `opp = {1,5}`. -/
theorem alpha_beta_best_move_witness :
    (∃ r m, alpha_beta 10 192 34 (-INT_MAX) INT_MAX = some (r, some m) ∧
      r = gameValue 192 34 ∧ m < 9 ∧ (192 ||| 34) &&& (1 <<< m) = 0 ∧
      moveValue gameValue 192 34 m = r ∧
      ∀ i, i < m → (192 ||| 34) &&& (1 <<< i) = 0 → moveValue gameValue 192 34 i ≠ r) ∧
    alpha_beta 10 3 24 (-INT_MAX) INT_MAX = some (1, some 2) :=
  alpha_beta_best_move 192 34 10 (by decide) (by decide) (by decide) (by decide) (by decide)

/-- C6: from the empty board the search returns score 0 (and stores cell 0). -/
theorem alpha_beta_empty_board_draw (fuel : Nat) (hfuel : 10 ≤ fuel) :
    alpha_beta fuel 0 0 (-INT_MAX) INT_MAX = some (0, some 0) :=
  search_empty_board fuel hfuel

/-- C6, at recursion depth 12. -/
theorem alpha_beta_empty_board_draw_witness :
    alpha_beta 12 0 0 (-INT_MAX) INT_MAX = some (0, some 0) :=
  alpha_beta_empty_board_draw 12 (by decide)

/-- C7, as stated, fails: on `me = {4}`, `opp = {}` the search returns score 1, not 0. -/
theorem centre_score_counterexample :
    (alpha_beta 10 (1 <<< 4) 0 (-INT_MAX) INT_MAX).map Prod.fst = some 1 ∧
    (alpha_beta 10 (1 <<< 4) 0 (-INT_MAX) INT_MAX).map Prod.fst ≠ some 0 := by
  rw [eval_centre]
  exact ⟨rfl, by decide⟩

/-- C7, amended: on `me = {4}`, `opp = {}` with `me` to move the search returns
score 1 (and stores cell 0): the mover holds the centre and moves again. -/
theorem alpha_beta_centre_win (fuel : Nat) (hfuel : 10 ≤ fuel) :
    alpha_beta fuel (1 <<< 4) 0 (-INT_MAX) INT_MAX = some (1, some 0) :=
  alpha_beta_mono 10 fuel hfuel _ 0 _ _ _ eval_centre

/-- C7 amended, at recursion depth 11. -/
theorem alpha_beta_centre_win_witness :
    alpha_beta 11 (1 <<< 4) 0 (-INT_MAX) INT_MAX = some (1, some 0) :=
  alpha_beta_centre_win 11 (by decide)

/-- C8, as stated, fails: on `me = {0,2,3,7}`, `opp = {1,4,5,6}` with the window
`(0, 1)` the only move, cell 8, scores 0, which is not above `achievable`, and the
search stores cell 0, which `me` occupies. -/
theorem narrow_window_move_counterexample :
    141 < 512 ∧ 114 < 512 ∧ 141 &&& 114 = 0 ∧ 141 ||| 114 ≠ FULL ∧
    alpha_beta 10 141 114 0 1 = some (0, some 0) ∧
    (141 ||| 114) &&& (1 <<< 0) ≠ 0 ∧ emptyCells (141 ||| 114) = [8] :=
  ⟨by decide, by decide, by decide, by decide, eval_endgame_narrow, by decide, by decide⟩

/-- C8, amended: on a non-full position and for every window with bounds in
`{-1, 0, +1}` the search stores an empty cell in `0..8` whenever it returns a score
above the initial `achievable`; when no move scores above it, the score returned is
`achievable` and the cell stored is 0, the initial value of `bestmove`. -/
theorem alpha_beta_window_move (me opp fuel : Nat) (a c : Int) (hme : me < 512)
    (hopp : opp < 512) (hdisj : me &&& opp = 0) (hfull : me ||| opp ≠ FULL)
    (ha : a = -1 ∨ a = 0 ∨ a = 1) (hc : c = -1 ∨ c = 0 ∨ c = 1) (hfuel : 10 ≤ fuel) :
    ∃ r m, alpha_beta fuel me opp a c = some (r, some m) ∧
      (a < r → m < 9 ∧ (me ||| opp) &&& (1 <<< m) = 0) ∧
      (r ≤ a → r = a ∧ m = 0) := by
  have hlen := emptyCells_length_le (me ||| opp)
  obtain ⟨x, hx⟩ := alpha_beta_total fuel me opp a c (by omega)
  obtain ⟨k, rfl⟩ : ∃ k, fuel = k + 1 := ⟨fuel - 1, by omega⟩
  rw [alpha_beta_step, if_neg hfull] at hx ⊢
  cases hs : scan (fun m o a1 c1 => (alpha_beta k m o a1 c1).map Prod.fst)
      me opp c cells a 0 with
  | none => rw [hs] at hx; exact Option.noConfusion hx
  | some y =>
    obtain ⟨r, m⟩ := y
    refine ⟨r, m, rfl, ?_, ?_⟩
    · intro hlt
      rcases scan_move _ me opp c cells a 0 r m hs with ⟨h1, _⟩ | ⟨_, h2, h3⟩
      · exact absurd h1 (ne_of_gt hlt)
      · exact ⟨(mem_cells m).mp h2, (emptyAt_iff _ _).mp h3⟩
    · intro hle
      rcases scan_move _ me opp c cells a 0 r m hs with h1 | ⟨h1, _, _⟩
      · exact h1
      · exact absurd h1 (not_lt.mpr hle)

/-- C8 amended, at `me = {0,2,3,7}`, `opp = {1,4,5,6}` with the window `(0, 1)`. -/
theorem alpha_beta_window_move_witness :
    ∃ r m, alpha_beta 10 141 114 0 1 = some (r, some m) ∧
      (0 < r → m < 9 ∧ (141 ||| 114) &&& (1 <<< m) = 0) ∧
      (r ≤ 0 → r = 0 ∧ m = 0) :=
  alpha_beta_window_move 141 114 10 0 1 (by decide) (by decide) (by decide) (by decide)
    (Or.inr (Or.inl rfl)) (Or.inr (Or.inr rfl)) (by decide)

/-- C9, the code on the failing input: the click handler only tests `players[X]`, so in
two-player mode the clicks on cells 0, 1, 1 are all accepted and cell 1 ends up
claimed by both sides. -/
theorem main_loop_overlap :
    main_loop 10 side.NONE [[Event.click 0, Event.click 1, Event.click 1]] =
      some ⟨3, 2, side.O, false⟩ ∧ 3 &&& 2 ≠ 0 :=
  ⟨by decide, by decide⟩

/-- C10: pruning is sound for every window `achievable < cutoff` within
`[-INT_MAX, INT_MAX]`: with `v` the unpruned negamax value, the score `r` returned by
`alpha_beta` equals `v` when `v` lies strictly inside the window, is at most
`achievable` when `v` is, and at least `cutoff` when `v` is. -/
theorem alpha_beta_pruning_sound (me opp fuel : Nat) (a c : Int) (hme : me < 512)
    (hopp : opp < 512) (hdisj : me &&& opp = 0) (hac : a < c) (ha : -INT_MAX ≤ a)
    (hc : c ≤ INT_MAX) (hfuel : 10 ≤ fuel) :
    (∃ r, (alpha_beta fuel me opp a c).map Prod.fst = some r ∧
      (a < gameValue me opp → gameValue me opp < c → r = gameValue me opp) ∧
      (gameValue me opp ≤ a → r ≤ a) ∧ (c ≤ gameValue me opp → c ≤ r)) ∧
    gameValue me opp =
      (if me ||| opp = FULL then 0
       else maxList ((emptyCells (me ||| opp)).map (moveValue gameValue me opp))) := by
  have hlen := emptyCells_length_le (me ||| opp)
  obtain ⟨r, m, hr, hs, _⟩ := alpha_beta_sound fuel me opp hme hopp (by omega) a c hac
  refine ⟨⟨r, ?_, hs⟩, gameValue_eq me opp⟩
  rw [hr, Option.map_some']

/-- C10, at `me = {}`, `opp = {0}` with the window `(0, 1)`. -/
theorem alpha_beta_pruning_sound_witness :
    ∃ r, (alpha_beta 10 0 1 0 1).map Prod.fst = some r ∧
      (0 < gameValue 0 1 → gameValue 0 1 < 1 → r = gameValue 0 1) ∧
      (gameValue 0 1 ≤ 0 → r ≤ 0) ∧ (1 ≤ gameValue 0 1 → 1 ≤ r) :=
  (alpha_beta_pruning_sound 0 1 10 0 1 (by decide) (by decide) (by decide) (by decide)
    (by decide) (by decide) (by decide)).1

end TicTac
